import Mathlib

/-!
# task-cli: a verification development

A shallow embedding of the Go command-line task tracker
(`internal/model/task.go`, `internal/storage/json_store.go`,
`internal/cli/handler.go`) and theorems about it.

Modelling conventions.

* Go `int` is the 64-bit two's-complement integer: values are `Int`s and the one
  arithmetic operation of the program (`maxID + 1` in `getNextID`) wraps with
  `wrapInt`.
* Go `[]byte` is `List Nat` (`Bytes`). In the handler a Go `string` is a
  `String`: the text of an argument, a description or a message. At the codec a
  Go `string` is the sequence of its bytes, because `encoding/json` treats bytes
  that are not well-formed UTF-8 in its own way: `RawTask` is `model.Task` with
  strings as `Bytes`.
* `encoding/json` is outside the repository. The store takes its two calls,
  `json.MarshalIndent` and `json.Unmarshal`, as the fields of a codec
  (`CodecOf`), and the theorems on the handler hold for every codec. `goJSON` is
  the codec of the program itself at `RawTask`: `goMarshalIndent` writes, byte
  for byte, the document that `json.MarshalIndent(tasks, "", "  ")` writes
  (Go 1.22), and `goUnmarshal` reads the documents written that way as
  `json.Unmarshal` does.
* `time.Time` is an abstract instant (`Time`) in the handler, where every command
  reads the clock at most once, so that the instant returned by `time.Now()` is
  the argument `now`. At the codec it is its civil reading with the zone offset
  in minutes (`GoTime`), which is what `Time.MarshalJSON` writes.
* The file system is the single file at the store's `FilePath` (`Disk`); calls to
  `os.Stat`, `os.ReadFile` and `os.WriteFile` are taken to succeed, so the only
  store errors are the codec's.
* Standard output is the list of printed messages (`Msg`), one constructor per
  print statement of the handler, rendered to the exact text by `Msg.render`.
* `World.trace` is ghost state: the calls made to the store, in order.
-/

namespace TaskCli

/-! ## internal/model/task.go -/

/-- Instants of `time.Time`, as an abstract totally ordered scale. -/
abbrev Time := Int

/-- Go `type TaskStatus string`. -/
abbrev TaskStatus := String

def StatusTodo : TaskStatus := "todo"

def StatusInProgress : TaskStatus := "in-progress"

def StatusDone : TaskStatus := "done"

/-- Go `type Task struct`. -/
structure Task where
  ID : Int
  Description : String
  Status : TaskStatus
  CreatedAt : Time
  UpdatedAt : Time
deriving DecidableEq, Repr

/-! ## Machine integers and library functions used by the program -/

/-- Smallest value of a 64-bit Go `int`. -/
def minInt : Int := -9223372036854775808

/-- Largest value of a 64-bit Go `int`. -/
def maxInt : Int := 9223372036854775807

/-- Two's-complement wrap-around of a 64-bit signed integer. -/
def wrapInt (x : Int) : Int := (x + 9223372036854775808) % 18446744073709551616 - 9223372036854775808

/-- Membership in the range of a 64-bit Go `int`. -/
def inIntRange (x : Int) : Prop := minInt ≤ x ∧ x ≤ maxInt

instance (x : Int) : Decidable (inIntRange x) := by
  unfold inIntRange; exact inferInstance

/-- Go `strconv.Atoi` on a 64-bit platform: an optional sign followed by one or
more ASCII digits, whose value fits a 64-bit `int`; `none` stands for a non-nil
error. -/
def atoi (s : String) : Option Int :=
  let cs := s.toList
  let neg : Bool := cs.head? = some '-'
  let ds : List Char :=
    match cs with
    | '-' :: r => r
    | '+' :: r => r
    | _ => cs
  if ds.isEmpty || !(ds.all Char.isDigit) then none
  else
    let n : Nat := ds.foldl (fun a c => 10 * a + (c.toNat - 48)) 0
    let v : Int := if neg then -(n : Int) else (n : Int)
    if v < minInt ∨ maxInt < v then none else some v

/-- Go `unicode.IsSpace`. -/
def isSpace (c : Char) : Bool :=
  let n := c.toNat
  n = 9 || n = 10 || n = 11 || n = 12 || n = 13 || n = 32 || n = 0x85 || n = 0xA0 ||
  n = 0x1680 || (0x2000 ≤ n && n ≤ 0x200A) || n = 0x2028 || n = 0x2029 || n = 0x202F ||
  n = 0x205F || n = 0x3000

/-- Go `strings.TrimSpace`: leading and trailing white space removed. -/
def TrimSpace (s : String) : String :=
  String.mk (((s.toList.dropWhile isSpace).reverse.dropWhile isSpace).reverse)

/-- Go `strings.Join`. -/
def Join (elems : List String) (sep : String) : String := sep.intercalate elems

/-! ## internal/storage/json_store.go -/

/-- Contents of a file. -/
abbrev Bytes := List Nat

/-- Go `[]byte("[]")`. -/
def emptyArrayBytes : Bytes := [91, 93]

/-- Errors surfaced by the store. -/
inductive StoreErr where
  | decode
  | encode
deriving DecidableEq, Repr

/-- The two functions of `encoding/json` the store calls, at the type of a
slice of tasks represented by `τ`: `marshal` is
`json.MarshalIndent(tasks, "", "  ")` and `unmarshal` is
`json.Unmarshal(data, &tasks)`; `none` stands for a non-nil error. -/
structure CodecOf (τ : Type) where
  marshal : List τ → Option Bytes
  unmarshal : Bytes → Option (List τ)

/-- The codec at the handler's representation of tasks. -/
abbrev Codec := CodecOf Task

/-- The file at the store's `FilePath`: `none` when it does not exist. -/
structure Disk where
  file : Option Bytes
deriving DecidableEq, Repr

instance {τ : Type} [DecidableEq τ] : DecidableEq (Except StoreErr (List τ)) := fun a b =>
  match a, b with
  | .ok x, .ok y =>
    if h : x = y then isTrue (by rw [h]) else isFalse (by intro e; cases e; exact h rfl)
  | .error x, .error y =>
    if h : x = y then isTrue (by rw [h]) else isFalse (by intro e; cases e; exact h rfl)
  | .ok _, .error _ => isFalse (by intro e; cases e)
  | .error _, .ok _ => isFalse (by intro e; cases e)

/-- Go `JSONStore.LoadTasks`: the result and the disk afterwards. -/
def LoadTasks {τ : Type} (c : CodecOf τ) (d : Disk) : Except StoreErr (List τ) × Disk :=
  match d.file with
  | none => (.ok [], { file := some emptyArrayBytes })
  | some data =>
    if data.length = 0 then (.ok [], d)
    else
      match c.unmarshal data with
      | none => (.error .decode, d)
      | some tasks => (.ok tasks, d)

/-- Go `JSONStore.SaveTasks`: the error, if any, and the disk afterwards. -/
def SaveTasks {τ : Type} (c : CodecOf τ) (tasks : List τ) (d : Disk) : Option StoreErr × Disk :=
  match c.marshal tasks with
  | none => (some .encode, d)
  | some data => (none, { file := some data })

/-! ## internal/cli/handler.go -/

/-- One constructor per print statement of the handler. -/
inductive Msg where
  | help
  | unknownCommand (cmd : String)
  | usageAdd
  | emptyDescription
  | errorLoading (e : StoreErr)
  | errorSaving (e : StoreErr)
  | added (id : Int)
  | invalidStatus
  | emptyNotice
  | taskLine (id : Int) (status : TaskStatus) (description : String) (updatedAt : Time)
  | usageUpdate
  | idNotNumber
  | notFound
  | updated
  | usageDelete
  | deleted
  | usageMark (status : TaskStatus)
  | marked (status : TaskStatus)
deriving DecidableEq, Repr

/-- Text of the values the handler formats through library code: an error's
message and `Time.Format("2006-01-02 15:04")`. -/
structure Fmt where
  err : StoreErr → String
  time : Time → String

/-- The lines printed for a message. -/
def Msg.render (f : Fmt) : Msg → List String
  | .help =>
    ["Task CLI - Commands:",
     "  task-cli add \"Task description\"",
     "  task-cli update <id> \"New description\"",
     "  task-cli delete <id>",
     "  task-cli mark-in-progress <id>",
     "  task-cli mark-done <id>",
     "  task-cli list",
     "  task-cli list todo|in-progress|done",
     "  task-cli help"]
  | .unknownCommand cmd => ["❌ Unknown command: " ++ cmd]
  | .usageAdd => ["❌ Usage: task-cli add \"Task description\""]
  | .emptyDescription => ["❌ Description cannot be empty"]
  | .errorLoading e => ["❌ Error loading tasks: " ++ f.err e]
  | .errorSaving e => ["❌ Error saving tasks: " ++ f.err e]
  | .added id => ["✅ Task added successfully (ID: " ++ toString id ++ ")"]
  | .invalidStatus => ["❌ Invalid status. Allowed: todo, in-progress, done"]
  | .emptyNotice => ["(empty) No tasks found."]
  | .taskLine id status description updatedAt =>
    ["[" ++ toString id ++ "] (" ++ status ++ ") " ++ description ++ " | updated: " ++ f.time updatedAt]
  | .usageUpdate => ["❌ Usage: task-cli update <id> \"New description\""]
  | .idNotNumber => ["❌ ID must be a number"]
  | .notFound => ["❌ Task not found"]
  | .updated => ["✅ Task updated successfully"]
  | .usageDelete => ["❌ Usage: task-cli delete <id>"]
  | .deleted => ["✅ Task deleted successfully"]
  | .usageMark status => ["❌ Usage: task-cli mark-" ++ status ++ " <id>"]
  | .marked status => ["✅ Task marked as " ++ status]

/-- A call made to the store. -/
inductive StoreCall where
  | load
  | save (tasks : List Task)
deriving DecidableEq, Repr

/-- What a command can observe and change: the disk, standard output, and the
ghost record of store calls. -/
structure World where
  disk : Disk
  out : List Msg
  trace : List StoreCall
deriving DecidableEq, Repr

/-- Printing one message. -/
def World.print (w : World) (m : Msg) : World :=
  { w with out := w.out ++ [m] }

/-- The call `h.store.LoadTasks()`. -/
def World.load (c : Codec) (w : World) : Except StoreErr (List Task) × World :=
  let r := LoadTasks c w.disk
  (r.1, { w with disk := r.2, trace := w.trace ++ [StoreCall.load] })

/-- The call `h.store.SaveTasks(tasks)`. -/
def World.save (c : Codec) (tasks : List Task) (w : World) : Option StoreErr × World :=
  let r := SaveTasks c tasks w.disk
  (r.1, { w with disk := r.2, trace := w.trace ++ [StoreCall.save tasks] })

/-- Go `getNextID`. -/
def getNextID (tasks : List Task) : Int :=
  let maxID := tasks.foldl (fun maxID t => if t.ID > maxID then t.ID else maxID) 0
  wrapInt (maxID + 1)

/-- Go `parseStatus`. -/
def parseStatus (s : String) : TaskStatus × Bool :=
  if s = "todo" then (StatusTodo, true)
  else if s = "in-progress" then (StatusInProgress, true)
  else if s = "done" then (StatusDone, true)
  else ("", false)

/-- The search loop shared by `Update` and `MarkStatus`: the first task whose ID
is `id` is overwritten by `f` and the loop breaks; the flag is `found`. -/
def setFirst (id : Int) (f : Task → Task) : List Task → List Task × Bool
  | [] => ([], false)
  | t :: ts =>
    if t.ID = id then (f t :: ts, true)
    else ((t :: (setFirst id f ts).1), (setFirst id f ts).2)

/-- The loop of `Delete`: `newTasks` and `found` after ranging over `tasks`. -/
def deleteLoop (id : Int) (tasks : List Task) : List Task × Bool :=
  tasks.foldl
    (fun (acc : List Task × Bool) t => if t.ID = id then (acc.1, true) else (acc.1 ++ [t], acc.2))
    ([], false)

/-- The line `List` prints for a task: its ID, status, description and
`UpdatedAt`. -/
def lineOf (t : Task) : Msg := .taskLine t.ID t.Status t.Description t.UpdatedAt

/-- The printing loop of `List`; `filter` is `none` for the nil pointer. -/
def printLoop (filter : Option TaskStatus) (tasks : List Task) (w : World) : World :=
  tasks.foldl
    (fun w t =>
      match filter with
      | some s => if t.Status ≠ s then w else w.print (lineOf t)
      | none => w.print (lineOf t))
    w

/-- Go `Handler.PrintHelp`. -/
def Handler.PrintHelp (w : World) : World := w.print .help

/-- Go `Handler.Add`. -/
def Handler.Add (c : Codec) (now : Time) (args : List String) (w : World) : World :=
  if args.length < 1 then w.print .usageAdd
  else
    let desc := TrimSpace (Join args " ")
    if desc = "" then w.print .emptyDescription
    else
      match w.load c with
      | (.error e, w1) => w1.print (.errorLoading e)
      | (.ok tasks, w1) =>
        let newID := getNextID tasks
        let newTask : Task :=
          { ID := newID, Description := desc, Status := StatusTodo, CreatedAt := now, UpdatedAt := now }
        let tasks := tasks ++ [newTask]
        match w1.save c tasks with
        | (some e, w2) => w2.print (.errorSaving e)
        | (none, w2) => w2.print (.added newID)

/-- Go `Handler.List`; the name `List` is taken by the list type, hence `ListCmd`. -/
def Handler.ListCmd (c : Codec) (args : List String) (w : World) : World :=
  match w.load c with
  | (.error e, w1) => w1.print (.errorLoading e)
  | (.ok tasks, w1) =>
    let parsed : Option (Option TaskStatus) :=
      match args with
      | [] => some none
      | a :: _ =>
        let r := parseStatus (TrimSpace a)
        if r.2 then some (some r.1) else none
    match parsed with
    | none => w1.print .invalidStatus
    | some filter =>
      if tasks.length = 0 then w1.print .emptyNotice
      else printLoop filter tasks w1

/-- Go `Handler.Update`. -/
def Handler.Update (c : Codec) (now : Time) (args : List String) (w : World) : World :=
  match args with
  | [] => w.print .usageUpdate
  | [_] => w.print .usageUpdate
  | a :: rest =>
    match atoi a with
    | none => w.print .idNotNumber
    | some id =>
      let newDesc := TrimSpace (Join rest " ")
      if newDesc = "" then w.print .emptyDescription
      else
        match w.load c with
        | (.error e, w1) => w1.print (.errorLoading e)
        | (.ok tasks, w1) =>
          let r := setFirst id (fun t => { t with Description := newDesc, UpdatedAt := now }) tasks
          if !r.2 then w1.print .notFound
          else
            match w1.save c r.1 with
            | (some e, w2) => w2.print (.errorSaving e)
            | (none, w2) => w2.print .updated

/-- Go `Handler.Delete`. -/
def Handler.Delete (c : Codec) (args : List String) (w : World) : World :=
  match args with
  | [] => w.print .usageDelete
  | a :: _ =>
    match atoi a with
    | none => w.print .idNotNumber
    | some id =>
      match w.load c with
      | (.error e, w1) => w1.print (.errorLoading e)
      | (.ok tasks, w1) =>
        let r := deleteLoop id tasks
        if !r.2 then w1.print .notFound
        else
          match w1.save c r.1 with
          | (some e, w2) => w2.print (.errorSaving e)
          | (none, w2) => w2.print .deleted

/-- Go `Handler.MarkStatus`. -/
def Handler.MarkStatus (c : Codec) (now : Time) (args : List String) (status : TaskStatus)
    (w : World) : World :=
  match args with
  | [] => w.print (.usageMark status)
  | a :: _ =>
    match atoi a with
    | none => w.print .idNotNumber
    | some id =>
      match w.load c with
      | (.error e, w1) => w1.print (.errorLoading e)
      | (.ok tasks, w1) =>
        let r := setFirst id (fun t => { t with Status := status, UpdatedAt := now }) tasks
        if !r.2 then w1.print .notFound
        else
          match w1.save c r.1 with
          | (some e, w2) => w2.print (.errorSaving e)
          | (none, w2) => w2.print (.marked status)

/-- Go `Handler.Run`; `args` is `os.Args[1:]`. -/
def Handler.Run (c : Codec) (now : Time) (args : List String) (w : World) : World :=
  match args with
  | [] => Handler.PrintHelp w
  | cmd :: rest =>
    if cmd = "add" then Handler.Add c now rest w
    else if cmd = "list" then Handler.ListCmd c rest w
    else if cmd = "update" then Handler.Update c now rest w
    else if cmd = "delete" then Handler.Delete c rest w
    else if cmd = "mark-in-progress" then Handler.MarkStatus c now rest StatusInProgress w
    else if cmd = "mark-done" then Handler.MarkStatus c now rest StatusDone w
    else if cmd = "help" then Handler.PrintHelp w
    else Handler.PrintHelp (w.print (.unknownCommand cmd))

/-! ## A reference codec

A concrete `Codec` on which the model can be run: integers and strings are
written as length-prefixed runs between the brackets `[` and `]`, and the empty
collection is written `[]`. -/

/-- Encoding of an integer: a sign flag and a magnitude. -/
def encInt : Int → Bytes
  | .ofNat n => [0, n]
  | .negSucc n => [1, n]

/-- Encoding of a string: its length, then its characters. -/
def encStr (s : String) : Bytes := s.length :: s.toList.map Char.toNat

/-- Encoding of one task. -/
def encTask (t : Task) : Bytes :=
  encInt t.ID ++ (encStr t.Description ++ (encStr t.Status ++ (encInt t.CreatedAt ++ encInt t.UpdatedAt)))

/-- Encoding of the tasks of a collection, one after the other. -/
def encTasks : List Task → Bytes
  | [] => []
  | t :: ts => encTask t ++ encTasks ts

/-- Decoding of an integer at the head of the input; the rest is returned. -/
def decInt : Bytes → Option (Int × Bytes)
  | 0 :: n :: r => some (.ofNat n, r)
  | 1 :: n :: r => some (.negSucc n, r)
  | _ => none

/-- Decoding of a string at the head of the input; the rest is returned. -/
def decStr : Bytes → Option (String × Bytes)
  | [] => none
  | n :: r => if n ≤ r.length then some (String.mk ((r.take n).map Char.ofNat), r.drop n) else none

/-- Decoding of one task at the head of the input; the rest is returned. -/
def decTask (l : Bytes) : Option (Task × Bytes) :=
  match decInt l with
  | none => none
  | some (id, l1) =>
    match decStr l1 with
    | none => none
    | some (desc, l2) =>
      match decStr l2 with
      | none => none
      | some (st, l3) =>
        match decInt l3 with
        | none => none
        | some (cr, l4) =>
          match decInt l4 with
          | none => none
          | some (up, l5) =>
            some ({ ID := id, Description := desc, Status := st, CreatedAt := cr, UpdatedAt := up }, l5)

/-- Decoding of `n` tasks at the head of the input; the rest is returned. -/
def decTasks : Nat → Bytes → Option (List Task × Bytes)
  | 0, l => some ([], l)
  | n + 1, l =>
    match decTask l with
    | none => none
    | some (t, l1) =>
      match decTasks n l1 with
      | none => none
      | some (ts, l2) => some (t :: ts, l2)

/-- The reference codec. -/
def refCodec : Codec where
  marshal := fun ts =>
    if ts = [] then some emptyArrayBytes else some (91 :: ts.length :: (encTasks ts ++ [93]))
  unmarshal := fun data =>
    if data = emptyArrayBytes then some []
    else
      match data with
      | 91 :: n :: r =>
        match decTasks n r with
        | some (ts, [93]) => some ts
        | _ => none
      | _ => none

/-- A world with the given disk, nothing printed and no store call made. -/
def World.init (d : Disk) : World := { disk := d, out := [], trace := [] }

/-- A sequence of invocations, each with its clock reading, run one process
after the other on the same file: the output of each invocation and the disk at
the end. -/
def runSeq (c : Codec) : List (Time × List String) → Disk → List (List Msg) × Disk
  | [], d => ([], d)
  | (now, args) :: rest, d =>
    let w := Handler.Run c now args (World.init d)
    ((w.out :: (runSeq c rest w.disk).1), (runSeq c rest w.disk).2)

/-- The id reported by an invocation that printed the success message of add. -/
def addedID : List Msg → Option Int
  | [] => none
  | .added id :: _ => some id
  | _ :: ms => addedID ms

/-- The ids assigned by the successful add commands of a run, in order. -/
def assignedIDs (outs : List (List Msg)) : List Int := outs.filterMap addedID

/-! ## encoding/json at type `[]model.Task`, byte for byte -/

/-- The bytes of an ASCII text. -/
def ascii (s : String) : Bytes := s.toList.map Char.toNat

/-- A `time.Time` by its civil reading in its own location: date, clock,
nanosecond, and the zone offset in minutes east of UTC. -/
structure GoTime where
  year : Nat
  month : Nat
  day : Nat
  hour : Nat
  minute : Nat
  second : Nat
  nanosecond : Nat
  offset : Int
deriving DecidableEq, Repr

/-- Go `type Task struct` with strings as byte sequences, as the codec sees
them. -/
structure RawTask where
  ID : Int
  Description : Bytes
  Status : Bytes
  CreatedAt : GoTime
  UpdatedAt : GoTime
deriving DecidableEq, Repr

/-- A continuation byte of UTF-8. -/
def isCont (b : Nat) : Bool := 0x80 ≤ b && b ≤ 0xBF

/-- The range that `utf8.DecodeRune` accepts for the second byte after the
leading byte `b0`. -/
def secondOK (b0 b1 : Nat) : Bool :=
  if b0 = 0xE0 then 0xA0 ≤ b1 && b1 ≤ 0xBF
  else if b0 = 0xED then 0x80 ≤ b1 && b1 ≤ 0x9F
  else if b0 = 0xF0 then 0x90 ≤ b1 && b1 ≤ 0xBF
  else if b0 = 0xF4 then 0x80 ≤ b1 && b1 ≤ 0x8F
  else isCont b1

/-- Width of a two-byte encoding, given the bytes after the leading byte. -/
def width2 : Bytes → Nat
  | b1 :: _ => if isCont b1 then 2 else 0
  | _ => 0

/-- Width of a three-byte encoding, given the bytes after the leading byte. -/
def width3 (b0 : Nat) : Bytes → Nat
  | b1 :: b2 :: _ => if secondOK b0 b1 && isCont b2 then 3 else 0
  | _ => 0

/-- Width of a four-byte encoding, given the bytes after the leading byte. -/
def width4 (b0 : Nat) : Bytes → Nat
  | b1 :: b2 :: b3 :: _ => if secondOK b0 b1 && isCont b2 && isCont b3 then 4 else 0
  | _ => 0

/-- Go `utf8.DecodeRune`, as far as the codec uses it: the width of the
well-formed encoding at the head of the input, or `0` where `DecodeRune`
returns `RuneError` with width 1 (or the input is empty). -/
def utf8Width : Bytes → Nat
  | [] => 0
  | b0 :: r =>
    if b0 < 0x80 then 1
    else if 0xC2 ≤ b0 ∧ b0 ≤ 0xDF then width2 r
    else if 0xE0 ≤ b0 ∧ b0 ≤ 0xEF then width3 b0 r
    else if 0xF0 ≤ b0 ∧ b0 ≤ 0xF4 then width4 b0 r
    else 0

/-- Go `utf8.EncodeRune`. -/
def encodeRune (r : Nat) : Bytes :=
  if r < 0x80 then [r]
  else if r < 0x800 then [0xC0 + r / 64, 0x80 + r % 64]
  else if (0xD800 ≤ r ∧ r < 0xE000) ∨ 0x10FFFF < r then [0xEF, 0xBF, 0xBD]
  else if r < 0x10000 then [0xE0 + r / 4096, 0x80 + r / 64 % 64, 0x80 + r % 64]
  else [0xF0 + r / 262144, 0x80 + r / 4096 % 64, 0x80 + r / 64 % 64, 0x80 + r % 64]

/-- The lower-case hexadecimal digit of a value below 16. -/
def hexDigit (n : Nat) : Nat := if n < 10 then 48 + n else 87 + n

/-- What `appendString` writes for an ASCII byte with `escapeHTML` set, as of
Go 1.22, where backspace and form feed have the short escapes `\b` and `\f`. -/
def escapeASCII (b : Nat) : Bytes :=
  if b = 0x22 ∨ b = 0x5C then [0x5C, b]
  else if b = 8 then [0x5C, 98]
  else if b = 12 then [0x5C, 102]
  else if b = 10 then [0x5C, 110]
  else if b = 13 then [0x5C, 114]
  else if b = 9 then [0x5C, 116]
  else if b < 0x20 ∨ b = 0x26 ∨ b = 0x3C ∨ b = 0x3E then
    [0x5C, 117, 48, 48, hexDigit (b / 16), hexDigit (b % 16)]
  else [b]

/-- The loop of `appendString`: the text between the quotes. The first argument
bounds the number of steps. -/
def escapeLoop : Nat → Bytes → Bytes
  | 0, _ => []
  | _, [] => []
  | f + 1, b :: r =>
    if b < 0x80 then escapeASCII b ++ escapeLoop f r
    else
      match utf8Width (b :: r) with
      | 0 => [0x5C, 117, 102, 102, 102, 100] ++ escapeLoop f r
      | w + 1 =>
        if b :: r.take w = [0xE2, 0x80, 0xA8] then [0x5C, 117, 50, 48, 50, 56] ++ escapeLoop f (r.drop w)
        else if b :: r.take w = [0xE2, 0x80, 0xA9] then [0x5C, 117, 50, 48, 50, 57] ++ escapeLoop f (r.drop w)
        else (b :: r.take w) ++ escapeLoop f (r.drop w)

/-- Go `appendString`: a string as a JSON string literal. -/
def jsonString (s : Bytes) : Bytes := 0x22 :: (escapeLoop s.length s ++ [0x22])

/-- Decimal digits of a natural number; the first argument bounds the number of
digits. -/
def natText : Nat → Nat → Bytes
  | 0, _ => []
  | f + 1, n => if n < 10 then [48 + n] else natText f (n / 10) ++ [48 + n % 10]

/-- Go `strconv.AppendInt` in base 10. -/
def intText (i : Int) : Bytes :=
  if i < 0 then 45 :: natText (i.natAbs + 1) i.natAbs else natText (i.natAbs + 1) i.natAbs

/-- Two decimal digits. -/
def pad2 (n : Nat) : Bytes := [48 + n / 10 % 10, 48 + n % 10]

/-- Four decimal digits. -/
def pad4 (n : Nat) : Bytes := [48 + n / 1000 % 10, 48 + n / 100 % 10, 48 + n / 10 % 10, 48 + n % 10]

/-- The digits of a fraction of `k` digits with value `v`, trailing zeros
removed. -/
def fracText : Nat → Nat → Bytes
  | 0, _ => []
  | k + 1, v => if v = 0 then [] else (48 + v / 10 ^ k % 10) :: fracText k (v % 10 ^ k)

/-- The zone of RFC 3339: `Z` for offset zero, otherwise sign, hours, minutes. -/
def zoneText (offset : Int) : Bytes :=
  if offset = 0 then [90]
  else (if offset < 0 then 45 else 43) :: (pad2 (offset.natAbs / 60) ++ 58 :: pad2 (offset.natAbs % 60))

/-- Go `Time.MarshalJSON`: the quoted RFC 3339 text with nanoseconds, or an
error when the year has more than four digits or the zone hour is above 23. -/
def timeJSON (t : GoTime) : Option Bytes :=
  if 9999 < t.year ∨ 1440 ≤ t.offset.natAbs then none
  else
    some (0x22 :: (pad4 t.year ++ 45 :: (pad2 t.month ++ 45 :: (pad2 t.day ++ 84 ::
      (pad2 t.hour ++ 58 :: (pad2 t.minute ++ 58 :: (pad2 t.second ++
        ((if t.nanosecond = 0 then [] else 46 :: fracText 9 t.nanosecond) ++
          (zoneText t.offset ++ [0x22])))))))))

/-- One task as `json.MarshalIndent` writes it inside the array. -/
def taskJSON (t : RawTask) : Option Bytes :=
  match timeJSON t.CreatedAt, timeJSON t.UpdatedAt with
  | some c, some u =>
    some (ascii "\x7b\n    \"id\": " ++ (intText t.ID ++
      (ascii ",\n    \"description\": " ++ (jsonString t.Description ++
      (ascii ",\n    \"status\": " ++ (jsonString t.Status ++
      (ascii ",\n    \"createdAt\": " ++ (c ++
      (ascii ",\n    \"updatedAt\": " ++ (u ++ ascii "\n  \x7d"))))))))))
  | _, _ => none

/-- The tasks after the first, each introduced by a comma and a line break. -/
def moreJSON : List RawTask → Option Bytes
  | [] => some (ascii "\n]")
  | t :: ts =>
    match taskJSON t, moreJSON ts with
    | some a, some b => some (ascii ",\n  " ++ (a ++ b))
    | _, _ => none

/-- Go `json.MarshalIndent(tasks, "", "  ")`. -/
def goMarshalIndent : List RawTask → Option Bytes
  | [] => some (ascii "[]")
  | t :: ts =>
    match taskJSON t, moreJSON ts with
    | some a, some b => some (ascii "[\n  " ++ (a ++ b))
    | _, _ => none

/-- An ASCII decimal digit. -/
def isDigitByte (b : Nat) : Bool := 48 ≤ b && b ≤ 57

/-- The input after a literal text, if the input starts with it. -/
def expect : Bytes → Bytes → Option Bytes
  | [], s => some s
  | _ :: _, [] => none
  | a :: l, b :: s => if a = b then expect l s else none

/-- The value of a hexadecimal digit. -/
def hexVal (c : Nat) : Option Nat :=
  if 48 ≤ c ∧ c ≤ 57 then some (c - 48)
  else if 97 ≤ c ∧ c ≤ 102 then some (c - 87)
  else if 65 ≤ c ∧ c ≤ 70 then some (c - 55)
  else none

/-- Go `getu4`, on the input after `\u`: the value of four hexadecimal digits
and the rest. -/
def getu4 : Bytes → Option (Nat × Bytes)
  | a :: b :: c :: d :: r =>
    match hexVal a, hexVal b, hexVal c, hexVal d with
    | some x, some y, some z, some w => some (4096 * x + 256 * y + 16 * z + w, r)
    | _, _, _, _ => none
  | _ => none

/-- The result of the rest of a string with `pre` decoded before it. -/
def emit (pre : Bytes) (res : Option (Bytes × Bytes)) : Option (Bytes × Bytes) :=
  match res with
  | none => none
  | some (s, rest) => some (pre ++ s, rest)

/-- A `\u` escape of `unquoteBytes`, on the input after `\u`: four
hexadecimal digits, a surrogate pair being completed by a second escape and a
lone surrogate replaced by U+FFFD. The result is the decoded bytes and the
rest. -/
def unicodeStep (r1 : Bytes) : Option (Bytes × Bytes) :=
  match getu4 r1 with
  | none => none
  | some (rr, r2) =>
    if 0xD800 ≤ rr ∧ rr < 0xE000 then
      match expect [0x5C, 117] r2 with
      | none => some ([0xEF, 0xBF, 0xBD], r2)
      | some r3 =>
        match getu4 r3 with
        | none => some ([0xEF, 0xBF, 0xBD], r2)
        | some (rr1, r4) =>
          if rr < 0xDC00 ∧ 0xDC00 ≤ rr1 ∧ rr1 < 0xE000 then
            some (encodeRune ((rr - 0xD800) * 1024 + (rr1 - 0xDC00) + 0x10000), r4)
          else some ([0xEF, 0xBF, 0xBD], r2)
    else some (encodeRune rr, r2)

/-- An escape of `unquoteBytes`, on the input after the backslash. -/
def escapeStep : Bytes → Option (Bytes × Bytes)
  | [] => none
  | e :: r1 =>
    if e = 0x22 ∨ e = 0x5C ∨ e = 0x2F then some ([e], r1)
    else if e = 98 then some ([8], r1)
    else if e = 102 then some ([12], r1)
    else if e = 110 then some ([10], r1)
    else if e = 114 then some ([13], r1)
    else if e = 116 then some ([9], r1)
    else if e = 117 then unicodeStep r1
    else none

/-- One step of the loop of `unquoteBytes`: `none` is an error (a control
character, an unknown escape, the end of the input); `some (none, rest)` is the
closing quote; `some (some bs, rest)` are decoded bytes, ill-formed UTF-8 being
replaced by U+FFFD. -/
def unquoteStep : Bytes → Option (Option Bytes × Bytes)
  | [] => none
  | c :: r =>
    if c = 0x22 then some (none, r)
    else if c = 0x5C then
      match escapeStep r with
      | none => none
      | some (bs, rest) => some (some bs, rest)
    else if c < 0x20 then none
    else if c < 0x80 then some (some [c], r)
    else
      match utf8Width (c :: r) with
      | 0 => some (some [0xEF, 0xBF, 0xBD], r)
      | w + 1 => some (some (c :: r.take w), r.drop w)

/-- Go `unquoteBytes` on the input after the opening quote: the decoded string
and the input after the closing quote. The first argument bounds the number of
steps. -/
def unquoteLoop : Nat → Bytes → Option (Bytes × Bytes)
  | 0, _ => none
  | f + 1, s =>
    match unquoteStep s with
    | none => none
    | some (none, rest) => some ([], rest)
    | some (some bs, rest) => emit bs (unquoteLoop f rest)

/-- A JSON string literal at the head of the input, decoded into a Go string. -/
def pString (s : Bytes) : Option (Bytes × Bytes) :=
  match expect [0x22] s with
  | none => none
  | some r => unquoteLoop r.length r

/-- The longest run of digits at the head of the input, and the rest. -/
def takeDigits : Bytes → Bytes × Bytes
  | [] => ([], [])
  | b :: r => if isDigitByte b then (b :: (takeDigits r).1, (takeDigits r).2) else ([], b :: r)

/-- The value of a run of decimal digits. -/
def digitsValue (ds : Bytes) : Nat := ds.foldl (fun a d => 10 * a + (d - 48)) 0

/-- A JSON integer without sign: digits, with no leading zero before another
digit. -/
def pNat (s : Bytes) : Option (Nat × Bytes) :=
  if (takeDigits s).1 = [] then none
  else if (takeDigits s).1.head? = some 48 ∧ 1 < (takeDigits s).1.length then none
  else some (digitsValue (takeDigits s).1, (takeDigits s).2)

/-- A JSON number decoded into a Go `int`: an integer literal within the range
of 64 bits. -/
def pInt (s : Bytes) : Option (Int × Bytes) :=
  match expect [45] s with
  | some r =>
    match pNat r with
    | none => none
    | some (n, r1) => if n ≤ 9223372036854775808 then some (-(n : Int), r1) else none
  | none =>
    match pNat s with
    | none => none
    | some (n, r1) => if n ≤ 9223372036854775807 then some ((n : Int), r1) else none

/-- Two digits at the head of the input. -/
def pDigits2 : Bytes → Option (Nat × Bytes)
  | a :: b :: r => if isDigitByte a && isDigitByte b then some ((a - 48) * 10 + (b - 48), r) else none
  | _ => none

/-- Four digits at the head of the input. -/
def pDigits4 : Bytes → Option (Nat × Bytes)
  | a :: b :: c :: d :: r =>
    if isDigitByte a && isDigitByte b && isDigitByte c && isDigitByte d then
      some ((a - 48) * 1000 + (b - 48) * 100 + (c - 48) * 10 + (d - 48), r)
    else none
  | _ => none

/-- Up to `k` digits of a fraction, read as a value of `k` digits. -/
def pFrac : Nat → Bytes → Nat × Bytes
  | 0, s => (0, s)
  | _ + 1, [] => (0, [])
  | k + 1, d :: r =>
    if isDigitByte d then ((d - 48) * 10 ^ k + (pFrac k r).1, (pFrac k r).2) else (0, d :: r)

/-- The fractional second of RFC 3339, if there is one: a dot and at least one
digit; the value in nanoseconds (digits after the ninth are dropped) and the
rest. -/
def pFraction (s : Bytes) : Nat × Bytes :=
  match expect [46] s with
  | none => (0, s)
  | some r =>
    if (r.head?.map isDigitByte) = some true then ((pFrac 9 r).1, (takeDigits (pFrac 9 r).2).2)
    else (0, s)

/-- Go `daysIn`. -/
def daysIn (month year : Nat) : Nat :=
  if month = 2 then (if year % 4 = 0 ∧ (year % 100 ≠ 0 ∨ year % 400 = 0) then 29 else 28)
  else if month = 4 ∨ month = 6 ∨ month = 9 ∨ month = 11 then 30
  else 31

/-- The zone of RFC 3339 at the head of the input, in minutes. -/
def pZone : Bytes → Option (Int × Bytes)
  | [] => none
  | z :: r =>
    if z = 90 then some (0, r)
    else if z = 43 ∨ z = 45 then
      match pDigits2 r with
      | none => none
      | some (hh, r1) =>
        match expect [58] r1 with
        | none => none
        | some r2 =>
          match pDigits2 r2 with
          | none => none
          | some (mm, r3) =>
            if hh ≤ 23 ∧ mm ≤ 59 then
              some ((if z = 45 then -((hh * 60 + mm : Nat) : Int) else ((hh * 60 + mm : Nat) : Int)), r3)
            else none
    else none

/-- Go `Time.UnmarshalJSON`: a quoted RFC 3339 text at the head of the input. -/
def pTime (s : Bytes) : Option (GoTime × Bytes) :=
  match expect [0x22] s with
  | none => none
  | some s1 =>
  match pDigits4 s1 with
  | none => none
  | some (year, s2) =>
  match expect [45] s2 with
  | none => none
  | some s3 =>
  match pDigits2 s3 with
  | none => none
  | some (month, s4) =>
  match expect [45] s4 with
  | none => none
  | some s5 =>
  match pDigits2 s5 with
  | none => none
  | some (day, s6) =>
  match expect [84] s6 with
  | none => none
  | some s7 =>
  match pDigits2 s7 with
  | none => none
  | some (hour, s8) =>
  match expect [58] s8 with
  | none => none
  | some s9 =>
  match pDigits2 s9 with
  | none => none
  | some (minute, s10) =>
  match expect [58] s10 with
  | none => none
  | some s11 =>
  match pDigits2 s11 with
  | none => none
  | some (second, s12) =>
    if 1 ≤ month ∧ month ≤ 12 ∧ 1 ≤ day ∧ day ≤ daysIn month year ∧ hour ≤ 23 ∧ minute ≤ 59 ∧
        second ≤ 59 then
      let fr : Nat × Bytes := pFraction s12
      match pZone fr.2 with
      | none => none
      | some (offset, s13) =>
        match expect [0x22] s13 with
        | none => none
        | some s14 =>
          some ({ year := year, month := month, day := day, hour := hour, minute := minute,
                  second := second, nanosecond := fr.1, offset := offset }, s14)
    else none

/-- One task in the layout of `taskJSON`. -/
def pTask (s : Bytes) : Option (RawTask × Bytes) :=
  match expect (ascii "\x7b\n    \"id\": ") s with
  | none => none
  | some s1 =>
  match pInt s1 with
  | none => none
  | some (id, s2) =>
  match expect (ascii ",\n    \"description\": ") s2 with
  | none => none
  | some s3 =>
  match pString s3 with
  | none => none
  | some (desc, s4) =>
  match expect (ascii ",\n    \"status\": ") s4 with
  | none => none
  | some s5 =>
  match pString s5 with
  | none => none
  | some (st, s6) =>
  match expect (ascii ",\n    \"createdAt\": ") s6 with
  | none => none
  | some s7 =>
  match pTime s7 with
  | none => none
  | some (cr, s8) =>
  match expect (ascii ",\n    \"updatedAt\": ") s8 with
  | none => none
  | some s9 =>
  match pTime s9 with
  | none => none
  | some (up, s10) =>
  match expect (ascii "\n  \x7d") s10 with
  | none => none
  | some s11 =>
    some ({ ID := id, Description := desc, Status := st, CreatedAt := cr, UpdatedAt := up }, s11)

/-- The tasks after the first, up to the closing bracket at the end of the
input. The first argument bounds the number of tasks. -/
def pMore : Nat → Bytes → Option (List RawTask)
  | 0, _ => none
  | f + 1, s =>
    if s = ascii "\n]" then some []
    else
      match expect (ascii ",\n  ") s with
      | none => none
      | some s1 =>
        match pTask s1 with
        | none => none
        | some (t, s2) =>
          match pMore f s2 with
          | none => none
          | some ts => some (t :: ts)

/-- Go `json.Unmarshal(data, &tasks)` on the documents that `json.MarshalIndent`
writes: `null`, `[]`, or an array of task objects in the layout of
`goMarshalIndent`. Any other input is an error in this model (the decoder of
the library also accepts other layouts of the same JSON values). -/
def goUnmarshal (data : Bytes) : Option (List RawTask) :=
  if data = ascii "null" ∨ data = ascii "[]" then some []
  else
    match expect (ascii "[\n  ") data with
    | none => none
    | some s1 =>
      match pTask s1 with
      | none => none
      | some (t, s2) =>
        match pMore s2.length.succ s2 with
        | none => none
        | some ts => some (t :: ts)

/-- A Go string with every byte that is not part of a well-formed UTF-8
encoding replaced by the encoding of U+FFFD. The first argument bounds the
number of steps. -/
def coerceLoop : Nat → Bytes → Bytes
  | 0, _ => []
  | _, [] => []
  | f + 1, b :: r =>
    if b < 0x80 then b :: coerceLoop f r
    else
      match utf8Width (b :: r) with
      | 0 => [0xEF, 0xBF, 0xBD] ++ coerceLoop f r
      | w + 1 => (b :: r.take w) ++ coerceLoop f (r.drop w)

/-- The string that `encoding/json` makes of a Go string: ill-formed UTF-8
replaced by U+FFFD. -/
def coerceUTF8 (s : Bytes) : Bytes := coerceLoop s.length s

/-- The loop of `validUTF8`. -/
def validLoop : Nat → Bytes → Bool
  | 0, s => s.isEmpty
  | _, [] => true
  | f + 1, b :: r =>
    match utf8Width (b :: r) with
    | 0 => false
    | w + 1 => validLoop f (r.drop w)

/-- Go `utf8.Valid`: the string is a sequence of well-formed encodings. -/
def validUTF8 (s : Bytes) : Bool := validLoop s.length s

/-- A civil reading that a `time.Time` can have: a day of the calendar, a time
of the day, and less than a second of nanoseconds. -/
def GoTime.WellFormed (t : GoTime) : Prop :=
  1 ≤ t.month ∧ t.month ≤ 12 ∧ 1 ≤ t.day ∧ t.day ≤ daysIn t.month t.year ∧ t.hour ≤ 23 ∧
  t.minute ≤ 59 ∧ t.second ≤ 59 ∧ t.nanosecond < 1000000000

instance (t : GoTime) : Decidable t.WellFormed := by
  unfold GoTime.WellFormed; exact inferInstance

/-- The task that `encoding/json` makes of a task: its strings coerced to
well-formed UTF-8. -/
def RawTask.coerce (t : RawTask) : RawTask :=
  { t with Description := coerceUTF8 t.Description, Status := coerceUTF8 t.Status }

/-- A task whose fields are values of their Go types: the ID is a 64-bit `int`
and the timestamps are civil readings. -/
def RawTask.Sound (t : RawTask) : Prop :=
  -9223372036854775808 ≤ t.ID ∧ t.ID ≤ 9223372036854775807 ∧ t.CreatedAt.WellFormed ∧
  t.UpdatedAt.WellFormed

instance (t : RawTask) : Decidable t.Sound := by
  unfold RawTask.Sound; exact inferInstance

/-- A task whose description and status are well-formed UTF-8. -/
def RawTask.ValidText (t : RawTask) : Prop :=
  validUTF8 t.Description = true ∧ validUTF8 t.Status = true

instance (t : RawTask) : Decidable t.ValidText := by
  unfold RawTask.ValidText; exact inferInstance


/-- The codec of the program: `encoding/json` on tasks whose strings are byte
sequences. -/
def goJSON : CodecOf RawTask where
  marshal := goMarshalIndent
  unmarshal := goUnmarshal

/-! ## Notions used to state the properties -/

/-- The largest ID of a collection, or `0` when no ID is positive: the maximum
of the IDs together with `0`. -/
def maxIDOrZero : List Task → Int
  | [] => 0
  | t :: ts => max t.ID (maxIDOrZero ts)

/-- The IDs of a collection, in order. -/
def ids (ts : List Task) : List Int := ts.map Task.ID

/-- A command that printed `m` and did nothing else: the disk is as before and
no call to the store was made. -/
def OnlyPrints (w w1 : World) (m : Msg) : Prop :=
  w1.out = w.out ++ [m] ∧ w1.disk = w.disk ∧ w1.trace = w.trace

/-- A command that reported that the task was not found after one load and no
save: an existing file is as before, an absent file has been created by the
load with the content `[]`. -/
def NotFoundAfterLoad (w w1 : World) : Prop :=
  w1.out = w.out ++ [Msg.notFound] ∧ w1.trace = w.trace ++ [StoreCall.load] ∧
  (w.disk.file ≠ none → w1.disk = w.disk) ∧
  (w.disk.file = none → w1.disk.file = some emptyArrayBytes)

/-- A command that made one load (leaving the disk `d`) and then one save of the
collection `saved`: when the codec writes `saved` as `data`, the file holds
`data` and `okMsg` is printed; when the codec fails, the disk stays `d` and the
save error is printed. -/
def SavesAfterLoad (c : Codec) (w : World) (d : Disk) (saved : List Task) (okMsg : Msg)
    (w1 : World) : Prop :=
  w1.trace = w.trace ++ [StoreCall.load, StoreCall.save saved] ∧
  (∀ data, c.marshal saved = some data →
    w1.disk = { file := some data } ∧ w1.out = w.out ++ [okMsg]) ∧
  (c.marshal saved = none → w1.disk = d ∧ w1.out = w.out ++ [Msg.errorSaving StoreErr.encode])

/-- What a command may have done to the store, given that a load leaves the
disk `d`: nothing; or one load; or one load followed by one save of a
collection whose IDs are pairwise distinct. -/
def StoreEffect (c : Codec) (w : World) (d : Disk) (w1 : World) : Prop :=
  (w1.disk = w.disk ∧ w1.trace = w.trace) ∨
  (w1.disk = d ∧ w1.trace = w.trace ++ [StoreCall.load]) ∨
  (∃ saved, (ids saved).Nodup ∧ w1.disk = (SaveTasks c saved d).2 ∧
    w1.trace = w.trace ++ [StoreCall.load, StoreCall.save saved])

/-- The codec gives `x` back: whatever `marshal` returns for `x` is not
zero-length and `unmarshal` reads it as `x`. -/
def Codec.RoundTrips (c : Codec) (x : List Task) : Prop :=
  ∀ data, c.marshal x = some data → data ≠ [] ∧ c.unmarshal data = some x

/-- A codec that gives every collection back and reads `[]` as the empty
collection. -/
def Codec.Lawful (c : Codec) : Prop :=
  (∀ x, c.RoundTrips x) ∧ c.unmarshal emptyArrayBytes = some []

/-- The collection a load would return from a disk, if it returned one. -/
def stored (c : Codec) (d : Disk) : Option (List Task) :=
  match (LoadTasks c d).1 with
  | .ok ts => some ts
  | .error _ => none

/-- The largest ID of the stored collection, or `0`; `0` as well when the file
cannot be loaded. -/
def level (c : Codec) (d : Disk) : Int :=
  match stored c d with
  | some ts => maxIDOrZero ts
  | none => 0

/-- The outcome of one invocation on the level of the store: either no id was
assigned and the level is as before, or the id assigned is the level plus one
and is the new level. -/
def LevelStep (c : Codec) (d : Disk) (w1 : World) : Prop :=
  (addedID w1.out = none ∧ level c w1.disk = level c d) ∨
  (addedID w1.out = some (level c d + 1) ∧ level c w1.disk = level c d + 1)

/-! ## Lemmas on the loops -/

theorem maxLoop_eq (ts : List Task) (m : Int) (hm : 0 ≤ m) :
    ts.foldl (fun maxID t => if t.ID > maxID then t.ID else maxID) m = max m (maxIDOrZero ts) := by
  induction ts generalizing m with
  | nil => simp [maxIDOrZero, hm]
  | cons t ts ih =>
    have h0 : 0 ≤ (if t.ID > m then t.ID else m) := by split_ifs <;> omega
    simp only [List.foldl_cons, maxIDOrZero, ih _ h0]
    split_ifs <;> simp [max_def] <;> split_ifs <;> omega

theorem maxIDOrZero_nonneg (ts : List Task) : 0 ≤ maxIDOrZero ts := by
  induction ts with
  | nil => simp [maxIDOrZero]
  | cons t ts ih => simp only [maxIDOrZero]; exact le_max_of_le_right ih

theorem le_maxIDOrZero (ts : List Task) : ∀ t ∈ ts, t.ID ≤ maxIDOrZero ts := by
  induction ts with
  | nil => simp
  | cons u ts ih =>
    intro t ht
    simp only [maxIDOrZero]
    rcases List.mem_cons.mp ht with h | h
    · subst h; exact le_max_left _ _
    · exact le_max_of_le_right (ih t h)

theorem maxIDOrZero_lt (ts : List Task) (b : Int) (hb : 0 < b) (h : ∀ t ∈ ts, t.ID < b) :
    maxIDOrZero ts < b := by
  induction ts with
  | nil => simpa [maxIDOrZero] using hb
  | cons u ts ih =>
    simp only [maxIDOrZero]
    exact max_lt (h u (List.mem_cons_self _ _)) (ih (fun t ht => h t (List.mem_cons_of_mem _ ht)))

theorem maxIDOrZero_congr (ts us : List Task) (h : ids ts = ids us) :
    maxIDOrZero ts = maxIDOrZero us := by
  induction ts generalizing us with
  | nil =>
    cases us with
    | nil => rfl
    | cons u us => simp [ids] at h
  | cons t ts ih =>
    cases us with
    | nil => simp [ids] at h
    | cons u us =>
      simp only [ids, List.map_cons, List.cons.injEq] at h
      simp only [maxIDOrZero, h.1, ih us h.2]

theorem maxIDOrZero_append_singleton (ts : List Task) (t : Task) :
    maxIDOrZero (ts ++ [t]) = max (maxIDOrZero ts) t.ID := by
  induction ts with
  | nil => simp [maxIDOrZero, max_comm]
  | cons u ts ih =>
    show max u.ID (maxIDOrZero (ts ++ [t])) = max (max u.ID (maxIDOrZero ts)) t.ID
    rw [ih, max_assoc]

theorem getNextID_eq_wrap (ts : List Task) : getNextID ts = wrapInt (maxIDOrZero ts + 1) := by
  simp only [getNextID, maxLoop_eq ts 0 (le_refl 0), max_eq_right (maxIDOrZero_nonneg ts)]

theorem wrapInt_of_inRange (x : Int) (h1 : minInt ≤ x) (h2 : x ≤ maxInt) : wrapInt x = x := by
  simp only [minInt, maxInt] at h1 h2
  simp only [wrapInt]
  omega

theorem getNextID_eq (ts : List Task) (hb : ∀ t ∈ ts, t.ID < maxInt) :
    getNextID ts = maxIDOrZero ts + 1 := by
  rw [getNextID_eq_wrap]
  have h1 := maxIDOrZero_nonneg ts
  have h2 := maxIDOrZero_lt ts maxInt (by decide) hb
  apply wrapInt_of_inRange
  · simp only [minInt]; omega
  · omega

theorem deleteLoop_foldl (id : Int) (ts : List Task) (acc : List Task × Bool) :
    ts.foldl
      (fun (acc : List Task × Bool) t => if t.ID = id then (acc.1, true) else (acc.1 ++ [t], acc.2))
      acc
      = (acc.1 ++ ts.filter (fun t => decide (t.ID ≠ id)), acc.2 || ts.any (fun t => decide (t.ID = id))) := by
  induction ts generalizing acc with
  | nil => simp
  | cons t ts ih =>
    simp only [List.foldl_cons, ih]
    by_cases h : t.ID = id <;> simp [h]

theorem deleteLoop_eq (id : Int) (ts : List Task) :
    deleteLoop id ts
      = (ts.filter (fun t => decide (t.ID ≠ id)), ts.any (fun t => decide (t.ID = id))) := by
  simp [deleteLoop, deleteLoop_foldl]

theorem filter_ne_of_nodup (id : Int) (ts : List Task) (hnd : (ids ts).Nodup)
    (hex : ∃ t ∈ ts, t.ID = id) :
    ∃ l1 t l2, ts = l1 ++ t :: l2 ∧ t.ID = id ∧
      ts.filter (fun t => decide (t.ID ≠ id)) = l1 ++ l2 ∧ ∀ u ∈ l1 ++ l2, u.ID ≠ id := by
  induction ts with
  | nil => simp at hex
  | cons u ts ih =>
    simp only [ids, List.map_cons, List.nodup_cons] at hnd
    by_cases hu : u.ID = id
    · have hno : ∀ v ∈ ts, v.ID ≠ id := by
        intro v hv hvid
        apply hnd.1
        rw [hu, ← hvid]
        exact List.mem_map_of_mem _ hv
      refine ⟨[], u, ts, rfl, hu, ?_, ?_⟩
      · simpa [hu] using hno
      · simpa using hno
    · obtain ⟨t, ht, htid⟩ := hex
      have htm : t ∈ ts := by
        rcases List.mem_cons.mp ht with h | h
        · subst h; exact absurd htid hu
        · exact h
      obtain ⟨l1, t1, l2, h1, h2, h3, h4⟩ := ih hnd.2 ⟨t, htm, htid⟩
      refine ⟨u :: l1, t1, l2, by simp [h1], h2, ?_, ?_⟩
      · simp only [decide_not] at h3
        simp [hu, h3]
      · intro v hv
        simp only [List.cons_append, List.mem_cons] at hv
        rcases hv with h | h
        · subst h; exact hu
        · exact h4 v h

theorem setFirst_found (id : Int) (f : Task → Task) (ts : List Task)
    (hex : ∃ t ∈ ts, t.ID = id) :
    ∃ l1 t l2, ts = l1 ++ t :: l2 ∧ t.ID = id ∧ (∀ u ∈ l1, u.ID ≠ id) ∧
      setFirst id f ts = (l1 ++ f t :: l2, true) := by
  induction ts with
  | nil => simp at hex
  | cons u ts ih =>
    by_cases hu : u.ID = id
    · exact ⟨[], u, ts, rfl, hu, by simp, by simp [setFirst, hu]⟩
    · obtain ⟨t, ht, htid⟩ := hex
      have htm : t ∈ ts := by
        rcases List.mem_cons.mp ht with h | h
        · subst h; exact absurd htid hu
        · exact h
      obtain ⟨l1, t1, l2, h1, h2, h3, h4⟩ := ih ⟨t, htm, htid⟩
      refine ⟨u :: l1, t1, l2, by simp [h1], h2, ?_, ?_⟩
      · intro v hv
        rcases List.mem_cons.mp hv with h | h
        · subst h; exact hu
        · exact h3 v h
      · simp [setFirst, hu, h4]

theorem setFirst_not_found (id : Int) (f : Task → Task) (ts : List Task)
    (hno : ∀ t ∈ ts, t.ID ≠ id) : setFirst id f ts = (ts, false) := by
  induction ts with
  | nil => rfl
  | cons u ts ih =>
    have hu : u.ID ≠ id := hno u (List.mem_cons_self _ _)
    have := ih (fun t ht => hno t (List.mem_cons_of_mem _ ht))
    simp [setFirst, hu, this]

theorem setFirst_ids (id : Int) (f : Task → Task) (hf : ∀ t, (f t).ID = t.ID) (ts : List Task) :
    ids (setFirst id f ts).1 = ids ts := by
  induction ts with
  | nil => rfl
  | cons u ts ih =>
    by_cases hu : u.ID = id
    · simp [setFirst, hu, ids, hf]
    · simp only [ids] at ih
      simp [setFirst, hu, ids, ih]

theorem printLoop_out (filter : Option TaskStatus) (ts : List Task) (w : World) :
    printLoop filter ts w =
      { w with out := w.out ++ (ts.filter (fun t =>
          match filter with
          | some s => decide (t.Status = s)
          | none => true)).map lineOf } := by
  induction ts generalizing w with
  | nil => simp [printLoop]
  | cons t ts ih =>
    simp only [printLoop, List.foldl_cons] at ih ⊢
    rw [ih]
    cases filter with
    | none => simp [World.print]
    | some s =>
      by_cases h : t.Status = s <;> simp [h, World.print]

/-! ## Lemmas on the store -/

theorem LoadTasks_disk_of_exists (c : Codec) (d : Disk) (h : d.file ≠ none) :
    (LoadTasks c d).2 = d := by
  unfold LoadTasks
  split
  · rename_i h1; exact absurd h1 h
  · split
    · rfl
    · split <;> rfl

theorem LoadTasks_absent (c : Codec) (d : Disk) (h : d.file = none) :
    LoadTasks c d = (.ok [], { file := some emptyArrayBytes }) := by
  unfold LoadTasks
  simp [h]

theorem LoadTasks_exists_of_ne_nil (c : Codec) (d d1 : Disk) (ts : List Task)
    (h : LoadTasks c d = (.ok ts, d1)) (hne : ts ≠ []) : d.file ≠ none := by
  intro hf
  rw [LoadTasks_absent c d hf] at h
  simp only [Prod.mk.injEq, Except.ok.injEq] at h
  exact hne h.1.symm

theorem trim_join_nil : TrimSpace (Join [] " ") = "" := by decide

theorem load_eq (c : Codec) (w : World) (ts : List Task) (d : Disk)
    (hload : LoadTasks c w.disk = (.ok ts, d)) :
    w.load c = (.ok ts, { w with disk := d, trace := w.trace ++ [StoreCall.load] }) := by
  simp [World.load, hload]

/-! ## Usage and parse errors -/

/-- C10: usage and parse errors of add, update, delete, mark-in-progress and
mark-done are detected before the store is touched: the command prints its
error message, makes no call to the store (neither a load nor a save) and
leaves the disk, including whether the file exists, as it was; for update a
non-integer id is reported whatever the description words are, so in
preference to the empty-description error. -/
theorem usage_and_parse_errors_before_store (c : Codec) (now : Time) (w : World) :
    OnlyPrints w (Handler.Run c now ["add"] w) .usageAdd ∧
    (∀ words, words ≠ [] → TrimSpace (Join words " ") = "" →
      OnlyPrints w (Handler.Run c now ("add" :: words) w) .emptyDescription) ∧
    (∀ args, args.length < 2 →
      OnlyPrints w (Handler.Run c now ("update" :: args) w) .usageUpdate) ∧
    (∀ a words, words ≠ [] → atoi a = none →
      OnlyPrints w (Handler.Run c now ("update" :: a :: words) w) .idNotNumber) ∧
    (∀ a id words, words ≠ [] → atoi a = some id → TrimSpace (Join words " ") = "" →
      OnlyPrints w (Handler.Run c now ("update" :: a :: words) w) .emptyDescription) ∧
    OnlyPrints w (Handler.Run c now ["delete"] w) .usageDelete ∧
    (∀ a rest, atoi a = none →
      OnlyPrints w (Handler.Run c now ("delete" :: a :: rest) w) .idNotNumber) ∧
    OnlyPrints w (Handler.Run c now ["mark-in-progress"] w) (.usageMark StatusInProgress) ∧
    (∀ a rest, atoi a = none →
      OnlyPrints w (Handler.Run c now ("mark-in-progress" :: a :: rest) w) .idNotNumber) ∧
    OnlyPrints w (Handler.Run c now ["mark-done"] w) (.usageMark StatusDone) ∧
    (∀ a rest, atoi a = none →
      OnlyPrints w (Handler.Run c now ("mark-done" :: a :: rest) w) .idNotNumber) := by
  refine ⟨?_, ?_, ?_, ?_, ?_, ?_, ?_, ?_, ?_, ?_, ?_⟩
  · simp [Handler.Run, Handler.Add, OnlyPrints, World.print]
  · intro words hne htrim
    cases words with
    | nil => exact absurd rfl hne
    | cons x xs => simp [Handler.Run, Handler.Add, OnlyPrints, World.print, htrim]
  · intro args hlen
    match args, hlen with
    | [], _ => simp [Handler.Run, Handler.Update, OnlyPrints, World.print]
    | [_], _ => simp [Handler.Run, Handler.Update, OnlyPrints, World.print]
  · intro a words hne hat
    cases words with
    | nil => exact absurd rfl hne
    | cons x xs => simp [Handler.Run, Handler.Update, OnlyPrints, World.print, hat]
  · intro a id words hne hat htrim
    cases words with
    | nil => exact absurd rfl hne
    | cons x xs => simp [Handler.Run, Handler.Update, OnlyPrints, World.print, hat, htrim]
  · simp [Handler.Run, Handler.Delete, OnlyPrints, World.print]
  · intro a rest hat
    simp [Handler.Run, Handler.Delete, OnlyPrints, World.print, hat]
  · simp [Handler.Run, Handler.MarkStatus, OnlyPrints, World.print]
  · intro a rest hat
    simp [Handler.Run, Handler.MarkStatus, OnlyPrints, World.print, hat]
  · simp [Handler.Run, Handler.MarkStatus, OnlyPrints, World.print]
  · intro a rest hat
    simp [Handler.Run, Handler.MarkStatus, OnlyPrints, World.print, hat]

/-- Witness for C10: `add "   "` on an absent file prints the empty-description
error and leaves the file absent. -/
theorem usage_and_parse_errors_before_store_witness :
    OnlyPrints (World.init { file := none })
      (Handler.Run refCodec 0 ["add", "   "] (World.init { file := none })) .emptyDescription :=
  (usage_and_parse_errors_before_store refCodec 0 (World.init { file := none })).2.1
    ["   "] (by decide) (by decide)

/-! ## Commands on an id that matches no task -/

/-- C3 (counterexample): on an absent file, `delete 1` reports that the task was
not found, yet the file does not stay as it was: the load creates it. -/
theorem not_found_on_absent_file_creates_it :
    atoi "1" = some 1 ∧
    (Handler.Run refCodec 0 ["delete", "1"] (World.init { file := none })).out = [Msg.notFound] ∧
    (Handler.Run refCodec 0 ["delete", "1"] (World.init { file := none })).disk
      ≠ (World.init { file := none }).disk := by
  decide

/-- C3 (amended): when the load succeeds and the id matches no loaded task,
update (with a description that does not trim to empty), delete,
mark-in-progress and mark-done each report that the task was not found after
one load and no save; an existing file is left exactly as it was, and an absent
file is created by the load with the content `[]`. -/
theorem not_found_leaves_existing_file (c : Codec) (now : Time) (w : World) (ts : List Task)
    (d : Disk) (a : String) (id : Int)
    (hload : LoadTasks c w.disk = (.ok ts, d)) (hid : atoi a = some id)
    (hno : ∀ t ∈ ts, t.ID ≠ id) :
    (∀ words, TrimSpace (Join words " ") ≠ "" →
      NotFoundAfterLoad w (Handler.Run c now ("update" :: a :: words) w)) ∧
    (∀ rest, NotFoundAfterLoad w (Handler.Run c now ("delete" :: a :: rest) w)) ∧
    (∀ rest, NotFoundAfterLoad w (Handler.Run c now ("mark-in-progress" :: a :: rest) w)) ∧
    (∀ rest, NotFoundAfterLoad w (Handler.Run c now ("mark-done" :: a :: rest) w)) := by
  have hd1 : w.disk.file ≠ none → d = w.disk := by
    intro h
    have := LoadTasks_disk_of_exists c w.disk h
    rw [hload] at this
    exact this
  have hd2 : w.disk.file = none → d.file = some emptyArrayBytes := by
    intro h
    rw [LoadTasks_absent c w.disk h] at hload
    simp only [Prod.mk.injEq] at hload
    rw [← hload.2]
  have hany : (ts.any fun t => decide (t.ID = id)) = false := by
    simpa using hno
  refine ⟨?_, ?_, ?_, ?_⟩
  · intro words htrim
    cases words with
    | nil => exact absurd trim_join_nil htrim
    | cons x xs =>
      simp [Handler.Run, Handler.Update, hid, htrim, load_eq c w ts d hload,
        setFirst_not_found id _ ts hno, World.print, NotFoundAfterLoad]
      exact ⟨hd1, hd2⟩
  · intro rest
    simp [Handler.Run, Handler.Delete, hid, load_eq c w ts d hload, deleteLoop_eq, hany,
      World.print, NotFoundAfterLoad]
    exact ⟨hd1, hd2⟩
  · intro rest
    simp [Handler.Run, Handler.MarkStatus, hid, load_eq c w ts d hload,
      setFirst_not_found id _ ts hno, World.print, NotFoundAfterLoad]
    exact ⟨hd1, hd2⟩
  · intro rest
    simp [Handler.Run, Handler.MarkStatus, hid, load_eq c w ts d hload,
      setFirst_not_found id _ ts hno, World.print, NotFoundAfterLoad]
    exact ⟨hd1, hd2⟩

/-- Witness for C3 (amended): `delete 7` on a file holding one task with id 1. -/
theorem not_found_leaves_existing_file_witness :
    NotFoundAfterLoad (World.init { file := refCodec.marshal [⟨1, "a", "todo", 0, 0⟩] })
      (Handler.Run refCodec 5 ["delete", "7"]
        (World.init { file := refCodec.marshal [⟨1, "a", "todo", 0, 0⟩] })) :=
  (not_found_leaves_existing_file refCodec 5
    (World.init { file := refCodec.marshal [⟨1, "a", "todo", 0, 0⟩] })
    [⟨1, "a", "todo", 0, 0⟩] { file := refCodec.marshal [⟨1, "a", "todo", 0, 0⟩] } "7" 7
    (by decide) (by decide) (by decide)).2.1 []

/-! ## list -/

/-- C8 (counterexample): with zero tasks loaded, `list bad` prints the
invalid-status error and not the empty notice. -/
theorem list_invalid_filter_on_empty_collection :
    (LoadTasks refCodec { file := some emptyArrayBytes }).1 = .ok [] ∧
    (Handler.Run refCodec 0 ["list", "bad"] (World.init { file := some emptyArrayBytes })).out
      = [Msg.invalidStatus] ∧
    (Handler.Run refCodec 0 ["list", "bad"] (World.init { file := some emptyArrayBytes })).out
      ≠ [Msg.emptyNotice] := by
  decide

/-- C8 (amended): when the loaded collection has zero tasks, list prints the
empty notice if there is no filter argument or if the first argument, trimmed,
is one of todo, in-progress, done; with any other first argument it prints the
invalid-status error instead. -/
theorem list_empty_collection (c : Codec) (now : Time) (w : World) (d : Disk)
    (hload : LoadTasks c w.disk = (.ok [], d)) :
    (Handler.Run c now ["list"] w).out = w.out ++ [Msg.emptyNotice] ∧
    (∀ a rest, TrimSpace a ∈ [StatusTodo, StatusInProgress, StatusDone] →
      (Handler.Run c now ("list" :: a :: rest) w).out = w.out ++ [Msg.emptyNotice]) ∧
    (∀ a rest, TrimSpace a ∉ [StatusTodo, StatusInProgress, StatusDone] →
      (Handler.Run c now ("list" :: a :: rest) w).out = w.out ++ [Msg.invalidStatus]) := by
  refine ⟨?_, ?_, ?_⟩
  · simp [Handler.Run, Handler.ListCmd, load_eq c w [] d hload, World.print]
  · intro a rest ha
    have hp : (parseStatus (TrimSpace a)).2 = true := by
      simp only [List.mem_cons, List.mem_singleton, List.not_mem_nil, or_false, StatusTodo,
        StatusInProgress, StatusDone] at ha
      rcases ha with h | h | h <;> rw [h] <;> decide
    simp [Handler.Run, Handler.ListCmd, load_eq c w [] d hload, World.print, hp]
  · intro a rest ha
    have hp : (parseStatus (TrimSpace a)).2 = false := by
      simp only [List.mem_cons, List.mem_singleton, List.not_mem_nil, or_false, StatusTodo,
        StatusInProgress, StatusDone, not_or] at ha
      simp [parseStatus, ha.1, ha.2.1, ha.2.2]
    simp [Handler.Run, Handler.ListCmd, load_eq c w [] d hload, World.print, hp]

/-- Witness for C8 (amended): on the file `[]`. -/
theorem list_empty_collection_witness :
    (Handler.Run refCodec 0 ["list"] (World.init { file := some emptyArrayBytes })).out
      = (World.init { file := some emptyArrayBytes }).out ++ [Msg.emptyNotice] :=
  (list_empty_collection refCodec 0 (World.init { file := some emptyArrayBytes })
    { file := some emptyArrayBytes } (by decide)).1

/-- C9: for a non-empty loaded collection, list without a filter prints exactly
the lines of its tasks in collection order, and list with one of todo,
in-progress, done prints exactly the lines of the tasks with that status, in
their order in the collection; each line carries the task's ID, status,
description and `UpdatedAt` (`lineOf`); whatever its arguments, list makes one
load and no save and leaves the disk as it was. -/
theorem list_output (c : Codec) (now : Time) (w : World) (ts : List Task) (d : Disk)
    (hload : LoadTasks c w.disk = (.ok ts, d)) (hne : ts ≠ []) :
    (Handler.Run c now ["list"] w).out = w.out ++ ts.map lineOf ∧
    (∀ s rest, s ∈ [StatusTodo, StatusInProgress, StatusDone] →
      (Handler.Run c now ("list" :: s :: rest) w).out
        = w.out ++ (ts.filter (fun t => decide (t.Status = s))).map lineOf) ∧
    (∀ args, (Handler.Run c now ("list" :: args) w).disk = w.disk ∧
      (Handler.Run c now ("list" :: args) w).trace = w.trace ++ [StoreCall.load]) := by
  have hd : d = w.disk := by
    have := LoadTasks_disk_of_exists c w.disk (LoadTasks_exists_of_ne_nil c w.disk d ts hload hne)
    rw [hload] at this
    exact this
  have hlen : ts.length ≠ 0 := by
    intro h; exact hne (List.length_eq_zero.mp h)
  refine ⟨?_, ?_, ?_⟩
  · simp [Handler.Run, Handler.ListCmd, load_eq c w ts d hload, hne, printLoop_out]
  · intro s rest hs
    have hp : parseStatus (TrimSpace s) = (s, true) := by
      simp only [List.mem_cons, List.mem_singleton, List.not_mem_nil, or_false, StatusTodo,
        StatusInProgress, StatusDone] at hs
      rcases hs with h | h | h <;> rw [h] <;> decide
    simp [Handler.Run, Handler.ListCmd, load_eq c w ts d hload, hne, printLoop_out, hp]
  · intro args
    cases args with
    | nil => simp [Handler.Run, Handler.ListCmd, load_eq c w ts d hload, hne, printLoop_out, hd]
    | cons a rest =>
      by_cases hp : (parseStatus (TrimSpace a)).2 = true
      · simp [Handler.Run, Handler.ListCmd, load_eq c w ts d hload, hne, printLoop_out, hd, hp]
      · simp [Handler.Run, Handler.ListCmd, load_eq c w ts d hload, hne, printLoop_out, hd, hp,
          World.print]

/-- Witness for C9: listing a file with two tasks. -/
theorem list_output_witness :
    (Handler.Run refCodec 9 ["list"]
      (World.init { file := refCodec.marshal [⟨1, "a", "done", 0, 3⟩, ⟨2, "b", "todo", 1, 1⟩] })).out
      = (World.init { file := refCodec.marshal [⟨1, "a", "done", 0, 3⟩, ⟨2, "b", "todo", 1, 1⟩] }).out
        ++ [⟨1, "a", "done", 0, 3⟩, ⟨2, "b", "todo", 1, 1⟩].map lineOf :=
  (list_output refCodec 9
    (World.init { file := refCodec.marshal [⟨1, "a", "done", 0, 3⟩, ⟨2, "b", "todo", 1, 1⟩] })
    [⟨1, "a", "done", 0, 3⟩, ⟨2, "b", "todo", 1, 1⟩]
    { file := refCodec.marshal [⟨1, "a", "done", 0, 3⟩, ⟨2, "b", "todo", 1, 1⟩] }
    (by decide) (by decide)).1

/-! ## Commands that save -/

theorem save_print (c : Codec) (w : World) (d : Disk) (saved : List Task) (okMsg : Msg) :
    SavesAfterLoad c w d saved okMsg
      (match World.save c saved { w with disk := d, trace := w.trace ++ [StoreCall.load] } with
       | (some e, w2) => w2.print (.errorSaving e)
       | (none, w2) => w2.print okMsg) := by
  cases h : c.marshal saved with
  | none => simp [SavesAfterLoad, World.save, SaveTasks, h, World.print]
  | some data => simp [SavesAfterLoad, World.save, SaveTasks, h, World.print]

/-- C6: for a loaded collection with pairwise distinct IDs and an id carried by
one of its tasks, delete saves the collection with exactly that task removed:
the collection is `l1 ++ t :: l2` with `t` the task of that id, and what is
saved is `l1 ++ l2`, one shorter, with no task of that id, every other task
unchanged and in the same order. -/
theorem delete_removes_exactly_one (c : Codec) (now : Time) (w : World) (ts : List Task)
    (d : Disk) (a : String) (id : Int) (rest : List String)
    (hload : LoadTasks c w.disk = (.ok ts, d)) (hnd : (ids ts).Nodup)
    (hid : atoi a = some id) (hex : ∃ t ∈ ts, t.ID = id) :
    ∃ l1 t l2, ts = l1 ++ t :: l2 ∧ t.ID = id ∧ (∀ u ∈ l1 ++ l2, u.ID ≠ id) ∧
      (l1 ++ l2).length + 1 = ts.length ∧
      SavesAfterLoad c w d (l1 ++ l2) .deleted (Handler.Run c now ("delete" :: a :: rest) w) := by
  obtain ⟨l1, t, l2, h1, h2, h3, h4⟩ := filter_ne_of_nodup id ts hnd hex
  refine ⟨l1, t, l2, h1, h2, h4, by rw [h1]; simp; omega, ?_⟩
  have hany : (ts.any fun t => decide (t.ID = id)) = true := by
    simpa using hex
  have hrun : Handler.Run c now ("delete" :: a :: rest) w
      = (match World.save c (l1 ++ l2) { w with disk := d, trace := w.trace ++ [StoreCall.load] } with
         | (some e, w2) => w2.print (.errorSaving e)
         | (none, w2) => w2.print .deleted) := by
    simp only [decide_not] at h3
    simp [Handler.Run, Handler.Delete, hid, load_eq c w ts d hload, deleteLoop_eq, hany, h3]
  rw [hrun]
  exact save_print c w d (l1 ++ l2) .deleted

/-- Witness for C6: deleting the task with id 1 out of two. -/
theorem delete_removes_exactly_one_witness :
    ∃ l1 t l2, [(⟨1, "a", "done", 0, 3⟩ : Task), ⟨2, "b", "todo", 1, 1⟩] = l1 ++ t :: l2 ∧
      t.ID = 1 ∧ (∀ u ∈ l1 ++ l2, u.ID ≠ 1) ∧
      (l1 ++ l2).length + 1 = [(⟨1, "a", "done", 0, 3⟩ : Task), ⟨2, "b", "todo", 1, 1⟩].length ∧
      SavesAfterLoad refCodec
        (World.init { file := refCodec.marshal [⟨1, "a", "done", 0, 3⟩, ⟨2, "b", "todo", 1, 1⟩] })
        { file := refCodec.marshal [⟨1, "a", "done", 0, 3⟩, ⟨2, "b", "todo", 1, 1⟩] }
        (l1 ++ l2) .deleted
        (Handler.Run refCodec 9 ("delete" :: "1" :: [])
          (World.init { file := refCodec.marshal [⟨1, "a", "done", 0, 3⟩, ⟨2, "b", "todo", 1, 1⟩] })) :=
  delete_removes_exactly_one refCodec 9
    (World.init { file := refCodec.marshal [⟨1, "a", "done", 0, 3⟩, ⟨2, "b", "todo", 1, 1⟩] })
    [⟨1, "a", "done", 0, 3⟩, ⟨2, "b", "todo", 1, 1⟩]
    { file := refCodec.marshal [⟨1, "a", "done", 0, 3⟩, ⟨2, "b", "todo", 1, 1⟩] } "1" 1 []
    (by decide) (by decide) (by decide) (by decide)

/-- C7: for a loaded collection and an id carried by one of its tasks, write the
collection `l1 ++ t :: l2` with `t` the first task of that id. Update (with a
description that does not trim to empty) saves `l1 ++ t1 :: l2` where `t1` is
`t` with only `Description` (the trimmed, space-joined words) and `UpdatedAt`
replaced; mark-in-progress and mark-done save `l1 ++ t1 :: l2` where `t1` is
`t` with only `Status` and `UpdatedAt` replaced. Length, order, every other
task, and the ID and `CreatedAt` of the matched task are as loaded. -/
theorem update_and_mark_frame (c : Codec) (now : Time) (w : World) (ts : List Task)
    (d : Disk) (a : String) (id : Int)
    (hload : LoadTasks c w.disk = (.ok ts, d))
    (hid : atoi a = some id) (hex : ∃ t ∈ ts, t.ID = id) :
    ∃ l1 t l2, ts = l1 ++ t :: l2 ∧ t.ID = id ∧ (∀ u ∈ l1, u.ID ≠ id) ∧
      (∀ words, TrimSpace (Join words " ") ≠ "" →
        SavesAfterLoad c w d
          (l1 ++ { t with Description := TrimSpace (Join words " "), UpdatedAt := now } :: l2)
          .updated (Handler.Run c now ("update" :: a :: words) w)) ∧
      (∀ rest,
        SavesAfterLoad c w d (l1 ++ { t with Status := StatusInProgress, UpdatedAt := now } :: l2)
          (.marked StatusInProgress) (Handler.Run c now ("mark-in-progress" :: a :: rest) w)) ∧
      (∀ rest,
        SavesAfterLoad c w d (l1 ++ { t with Status := StatusDone, UpdatedAt := now } :: l2)
          (.marked StatusDone) (Handler.Run c now ("mark-done" :: a :: rest) w)) := by
  obtain ⟨l1, t, l2, h1, h2, h3, -⟩ := setFirst_found id (fun t => t) ts hex
  have hset : ∀ f : Task → Task, setFirst id f ts = (l1 ++ f t :: l2, true) := by
    intro f
    obtain ⟨m1, u, m2, k1, k2, k3, k4⟩ := setFirst_found id f ts hex
    have hsplit : m1 = l1 ∧ u = t ∧ m2 = l2 := by
      clear k4 hload hex
      subst h1
      induction l1 generalizing m1 with
      | nil =>
        cases m1 with
        | nil => simpa using k1.symm
        | cons v m1 =>
          simp only [List.nil_append, List.cons_append, List.cons.injEq] at k1
          exact absurd (k1.1 ▸ h2) (k3 v (List.mem_cons_self _ _))
      | cons v l1 ih =>
        cases m1 with
        | nil =>
          simp only [List.nil_append, List.cons_append, List.cons.injEq] at k1
          exact absurd (k1.1 ▸ k2) (h3 v (List.mem_cons_self _ _))
        | cons v1 m1 =>
          simp only [List.cons_append, List.cons.injEq] at k1
          have := ih (fun x hx => h3 x (List.mem_cons_of_mem _ hx)) m1
            (fun x hx => k3 x (List.mem_cons_of_mem _ hx)) k1.2
          simp [k1.1, this]
    rw [k4, hsplit.1, hsplit.2.1, hsplit.2.2]
  refine ⟨l1, t, l2, h1, h2, h3, ?_, ?_, ?_⟩
  · intro words htrim
    cases words with
    | nil => exact absurd trim_join_nil htrim
    | cons x xs =>
      have hrun : Handler.Run c now ("update" :: a :: x :: xs) w
          = (match World.save c
                (l1 ++ { t with Description := TrimSpace (Join (x :: xs) " "), UpdatedAt := now } :: l2)
                { w with disk := d, trace := w.trace ++ [StoreCall.load] } with
             | (some e, w2) => w2.print (.errorSaving e)
             | (none, w2) => w2.print .updated) := by
        simp [Handler.Run, Handler.Update, hid, htrim, load_eq c w ts d hload, hset]
      rw [hrun]
      exact save_print c w d _ .updated
  · intro rest
    have hrun : Handler.Run c now ("mark-in-progress" :: a :: rest) w
        = (match World.save c (l1 ++ { t with Status := StatusInProgress, UpdatedAt := now } :: l2)
              { w with disk := d, trace := w.trace ++ [StoreCall.load] } with
           | (some e, w2) => w2.print (.errorSaving e)
           | (none, w2) => w2.print (.marked StatusInProgress)) := by
      simp [Handler.Run, Handler.MarkStatus, hid, load_eq c w ts d hload, hset]
    rw [hrun]
    exact save_print c w d _ _
  · intro rest
    have hrun : Handler.Run c now ("mark-done" :: a :: rest) w
        = (match World.save c (l1 ++ { t with Status := StatusDone, UpdatedAt := now } :: l2)
              { w with disk := d, trace := w.trace ++ [StoreCall.load] } with
           | (some e, w2) => w2.print (.errorSaving e)
           | (none, w2) => w2.print (.marked StatusDone)) := by
      simp [Handler.Run, Handler.MarkStatus, hid, load_eq c w ts d hload, hset]
    rw [hrun]
    exact save_print c w d _ _

/-- Witness for C7: marking the second of two tasks done. -/
theorem update_and_mark_frame_witness :
    ∃ l1 t l2, [(⟨1, "a", "done", 0, 3⟩ : Task), ⟨2, "b", "todo", 1, 1⟩] = l1 ++ t :: l2 ∧
      t.ID = 2 ∧ (∀ u ∈ l1, u.ID ≠ 2) ∧
      (∀ words, TrimSpace (Join words " ") ≠ "" →
        SavesAfterLoad refCodec
          (World.init { file := refCodec.marshal [⟨1, "a", "done", 0, 3⟩, ⟨2, "b", "todo", 1, 1⟩] })
          { file := refCodec.marshal [⟨1, "a", "done", 0, 3⟩, ⟨2, "b", "todo", 1, 1⟩] }
          (l1 ++ { t with Description := TrimSpace (Join words " "), UpdatedAt := 9 } :: l2)
          .updated
          (Handler.Run refCodec 9 ("update" :: "2" :: words)
            (World.init { file := refCodec.marshal [⟨1, "a", "done", 0, 3⟩, ⟨2, "b", "todo", 1, 1⟩] }))) ∧
      (∀ rest,
        SavesAfterLoad refCodec
          (World.init { file := refCodec.marshal [⟨1, "a", "done", 0, 3⟩, ⟨2, "b", "todo", 1, 1⟩] })
          { file := refCodec.marshal [⟨1, "a", "done", 0, 3⟩, ⟨2, "b", "todo", 1, 1⟩] }
          (l1 ++ { t with Status := StatusInProgress, UpdatedAt := 9 } :: l2)
          (.marked StatusInProgress)
          (Handler.Run refCodec 9 ("mark-in-progress" :: "2" :: rest)
            (World.init { file := refCodec.marshal [⟨1, "a", "done", 0, 3⟩, ⟨2, "b", "todo", 1, 1⟩] }))) ∧
      (∀ rest,
        SavesAfterLoad refCodec
          (World.init { file := refCodec.marshal [⟨1, "a", "done", 0, 3⟩, ⟨2, "b", "todo", 1, 1⟩] })
          { file := refCodec.marshal [⟨1, "a", "done", 0, 3⟩, ⟨2, "b", "todo", 1, 1⟩] }
          (l1 ++ { t with Status := StatusDone, UpdatedAt := 9 } :: l2)
          (.marked StatusDone)
          (Handler.Run refCodec 9 ("mark-done" :: "2" :: rest)
            (World.init { file := refCodec.marshal [⟨1, "a", "done", 0, 3⟩, ⟨2, "b", "todo", 1, 1⟩] }))) :=
  update_and_mark_frame refCodec 9
    (World.init { file := refCodec.marshal [⟨1, "a", "done", 0, 3⟩, ⟨2, "b", "todo", 1, 1⟩] })
    [⟨1, "a", "done", 0, 3⟩, ⟨2, "b", "todo", 1, 1⟩]
    { file := refCodec.marshal [⟨1, "a", "done", 0, 3⟩, ⟨2, "b", "todo", 1, 1⟩] } "2" 2
    (by decide) (by decide) (by decide)

/-! ## add -/

/-- C5 (counterexample): when the loaded collection holds the largest
representable id, the id computed by add wraps around to the smallest one, which
is not the maximum plus one. -/
theorem add_id_wraps_at_max_int :
    inIntRange maxInt ∧
    (LoadTasks refCodec { file := refCodec.marshal [⟨maxInt, "a", "todo", 0, 0⟩] }).1
      = .ok [⟨maxInt, "a", "todo", 0, 0⟩] ∧
    (Handler.Run refCodec 5 ["add", "x"]
      (World.init { file := refCodec.marshal [⟨maxInt, "a", "todo", 0, 0⟩] })).trace
      = [StoreCall.load,
         StoreCall.save [⟨maxInt, "a", "todo", 0, 0⟩, ⟨minInt, "x", "todo", 5, 5⟩]] ∧
    minInt ≠ maxIDOrZero [⟨maxInt, "a", "todo", 0, 0⟩] + 1 := by
  decide

/-- C5 (amended): for a loaded collection `ts` whose IDs are all below the
largest representable integer and words that join and trim to a non-empty
description, add saves exactly `ts` followed by one new task whose ID is the
maximum of the IDs of `ts` and `0`, plus one, whose description is the trimmed
joined words, whose status is todo and whose `CreatedAt` and `UpdatedAt` are
both the current instant; the reported id is that of the new task. -/
theorem add_appends_new_task (c : Codec) (now : Time) (w : World) (ts : List Task) (d : Disk)
    (words : List String)
    (hload : LoadTasks c w.disk = (.ok ts, d))
    (hdesc : TrimSpace (Join words " ") ≠ "")
    (hb : ∀ t ∈ ts, t.ID < maxInt) :
    SavesAfterLoad c w d
      (ts ++ [{ ID := maxIDOrZero ts + 1, Description := TrimSpace (Join words " "),
                Status := StatusTodo, CreatedAt := now, UpdatedAt := now }])
      (.added (maxIDOrZero ts + 1)) (Handler.Run c now ("add" :: words) w) := by
  cases words with
  | nil => exact absurd trim_join_nil hdesc
  | cons x xs =>
    have hrun : Handler.Run c now ("add" :: x :: xs) w
        = (match World.save c
              (ts ++ [{ ID := maxIDOrZero ts + 1, Description := TrimSpace (Join (x :: xs) " "),
                        Status := StatusTodo, CreatedAt := now, UpdatedAt := now }])
              { w with disk := d, trace := w.trace ++ [StoreCall.load] } with
           | (some e, w2) => w2.print (.errorSaving e)
           | (none, w2) => w2.print (.added (maxIDOrZero ts + 1))) := by
      simp [Handler.Run, Handler.Add, hdesc, load_eq c w ts d hload, getNextID_eq ts hb]
    rw [hrun]
    exact save_print c w d _ _

/-- Witness for C5 (amended): adding to a file with one task. -/
theorem add_appends_new_task_witness :
    SavesAfterLoad refCodec (World.init { file := refCodec.marshal [⟨3, "a", "todo", 0, 0⟩] })
      { file := refCodec.marshal [⟨3, "a", "todo", 0, 0⟩] }
      ([⟨3, "a", "todo", 0, 0⟩] ++
        [{ ID := maxIDOrZero [⟨3, "a", "todo", 0, 0⟩] + 1,
           Description := TrimSpace (Join ["buy", "milk "] " "),
           Status := StatusTodo, CreatedAt := 7, UpdatedAt := 7 }])
      (.added (maxIDOrZero [⟨3, "a", "todo", 0, 0⟩] + 1))
      (Handler.Run refCodec 7 ("add" :: ["buy", "milk "])
        (World.init { file := refCodec.marshal [⟨3, "a", "todo", 0, 0⟩] })) :=
  add_appends_new_task refCodec 7 (World.init { file := refCodec.marshal [⟨3, "a", "todo", 0, 0⟩] })
    [⟨3, "a", "todo", 0, 0⟩] { file := refCodec.marshal [⟨3, "a", "todo", 0, 0⟩] }
    ["buy", "milk "] (by decide) (by decide) (by decide)

/-! ## The reference codec gives every collection back -/

theorem decInt_encInt (i : Int) (r : Bytes) : decInt (encInt i ++ r) = some (i, r) := by
  cases i <;> rfl

theorem decStr_encStr (s : String) (r : Bytes) : decStr (encStr s ++ r) = some (s, r) := by
  cases s with
  | mk l =>
    have hmap : (l.map Char.toNat).map Char.ofNat = l := by
      rw [List.map_map]
      conv_rhs => rw [← List.map_id l]
      apply List.map_congr_left
      intro c _
      simp
    have hl : l.length = (l.map Char.toNat).length := (List.length_map _ _).symm
    show decStr (l.length :: (l.map Char.toNat ++ r)) = some (String.mk l, r)
    simp only [decStr]
    rw [if_pos (by rw [List.length_append, List.length_map]; omega)]
    rw [hl, List.take_left, List.drop_left, hmap]

theorem decTask_encTask (t : Task) (r : Bytes) : decTask (encTask t ++ r) = some (t, r) := by
  simp only [encTask, decTask, List.append_assoc, decInt_encInt, decStr_encStr]

theorem decTasks_encTasks (ts : List Task) (r : Bytes) :
    decTasks ts.length (encTasks ts ++ r) = some (ts, r) := by
  induction ts with
  | nil => rfl
  | cons t ts ih =>
    simp only [List.length_cons, encTasks, decTasks, List.append_assoc, decTask_encTask, ih]

theorem refCodec_roundTrips (x : List Task) : refCodec.RoundTrips x := by
  intro data h
  by_cases hx : x = []
  · subst hx
    simp only [refCodec, if_true, Option.some.injEq] at h
    subst h
    exact ⟨by decide, by decide⟩
  · simp only [refCodec, if_neg hx, Option.some.injEq] at h
    subst h
    refine ⟨by simp, ?_⟩
    have hne : (91 :: x.length :: (encTasks x ++ [93]) : Bytes) ≠ emptyArrayBytes := by
      simp [emptyArrayBytes]
    simp only [refCodec, if_neg hne, decTasks_encTasks]

theorem refCodec_lawful : refCodec.Lawful :=
  ⟨refCodec_roundTrips, by decide⟩

/-! ## Uniqueness of IDs -/

theorem getNextID_not_mem (ts : List Task) (hb : ∀ t ∈ ts, t.ID < maxInt) :
    getNextID ts ∉ ids ts := by
  rw [getNextID_eq ts hb]
  intro hmem
  obtain ⟨t, ht, hid⟩ := List.mem_map.mp hmem
  have := le_maxIDOrZero ts t ht
  omega

theorem save_effect (c : Codec) (w : World) (d : Disk) (saved : List Task) (okMsg : Msg)
    (hnd : (ids saved).Nodup) :
    StoreEffect c w d
      (match World.save c saved { w with disk := d, trace := w.trace ++ [StoreCall.load] } with
       | (some e, w2) => w2.print (.errorSaving e)
       | (none, w2) => w2.print okMsg) := by
  refine Or.inr (Or.inr ⟨saved, hnd, ?_, ?_⟩)
  · cases h : c.marshal saved <;> simp [World.save, SaveTasks, h, World.print]
  · cases h : c.marshal saved <;> simp [World.save, SaveTasks, h, World.print]

theorem add_effect (c : Codec) (now : Time) (args : List String) (w : World) (ts : List Task)
    (d : Disk) (hload : LoadTasks c w.disk = (.ok ts, d)) (hnd : (ids ts).Nodup)
    (hb : ∀ t ∈ ts, t.ID < maxInt) : StoreEffect c w d (Handler.Add c now args w) := by
  unfold Handler.Add
  by_cases h1 : args.length < 1
  · simp [h1, StoreEffect, World.print]
  · by_cases h2 : TrimSpace (Join args " ") = ""
    · simp [h1, h2, StoreEffect, World.print]
    · simp only [h1, h2, if_false, load_eq c w ts d hload]
      apply save_effect
      simp only [ids, List.map_append, List.map_cons, List.map_nil]
      rw [List.nodup_append]
      refine ⟨hnd, List.nodup_singleton _, ?_⟩
      intro x hx hx2
      rw [List.mem_singleton] at hx2
      subst hx2
      exact getNextID_not_mem ts hb hx

theorem list_effect (c : Codec) (args : List String) (w : World) (ts : List Task)
    (d : Disk) (hload : LoadTasks c w.disk = (.ok ts, d)) :
    StoreEffect c w d (Handler.ListCmd c args w) := by
  refine Or.inr (Or.inl ?_)
  unfold Handler.ListCmd
  simp only [load_eq c w ts d hload, printLoop_out]
  split
  · simp [World.print]
  · split_ifs <;> simp [World.print]

theorem setFirst_effect (c : Codec) (w : World) (ts : List Task) (d : Disk) (id : Int)
    (f : Task → Task) (hf : ∀ t, (f t).ID = t.ID) (okMsg : Msg) (hnd : (ids ts).Nodup) :
    StoreEffect c w d
      (if (!(setFirst id f ts).2) = true then
        World.print { w with disk := d, trace := w.trace ++ [StoreCall.load] } .notFound
      else
        match World.save c (setFirst id f ts).1
            { w with disk := d, trace := w.trace ++ [StoreCall.load] } with
        | (some e, w2) => w2.print (.errorSaving e)
        | (none, w2) => w2.print okMsg) := by
  split_ifs with h
  · simp [StoreEffect, World.print]
  · apply save_effect
    rw [setFirst_ids id f hf ts]
    exact hnd

theorem update_effect (c : Codec) (now : Time) (args : List String) (w : World) (ts : List Task)
    (d : Disk) (hload : LoadTasks c w.disk = (.ok ts, d)) (hnd : (ids ts).Nodup) :
    StoreEffect c w d (Handler.Update c now args w) := by
  match args with
  | [] => simp [Handler.Update, StoreEffect, World.print]
  | [_] => simp [Handler.Update, StoreEffect, World.print]
  | a :: x :: xs =>
    simp only [Handler.Update]
    cases hat : atoi a with
    | none => simp [StoreEffect, World.print]
    | some id =>
      by_cases h2 : TrimSpace (Join (x :: xs) " ") = ""
      · simp [h2, StoreEffect, World.print]
      · simp only [h2, if_false, load_eq c w ts d hload]
        refine setFirst_effect c w ts d id _ ?_ _ hnd
        intro t
        rfl

theorem mark_effect (c : Codec) (now : Time) (args : List String) (status : TaskStatus)
    (w : World) (ts : List Task) (d : Disk) (hload : LoadTasks c w.disk = (.ok ts, d))
    (hnd : (ids ts).Nodup) : StoreEffect c w d (Handler.MarkStatus c now args status w) := by
  match args with
  | [] => simp [Handler.MarkStatus, StoreEffect, World.print]
  | a :: rest =>
    simp only [Handler.MarkStatus]
    cases hat : atoi a with
    | none => simp [StoreEffect, World.print]
    | some id =>
      simp only [load_eq c w ts d hload]
      refine setFirst_effect c w ts d id _ ?_ _ hnd
      intro t
      rfl

theorem delete_effect (c : Codec) (args : List String) (w : World) (ts : List Task)
    (d : Disk) (hload : LoadTasks c w.disk = (.ok ts, d)) (hnd : (ids ts).Nodup) :
    StoreEffect c w d (Handler.Delete c args w) := by
  match args with
  | [] => simp [Handler.Delete, StoreEffect, World.print]
  | a :: rest =>
    simp only [Handler.Delete]
    cases hat : atoi a with
    | none => simp [StoreEffect, World.print]
    | some id =>
      simp only [load_eq c w ts d hload]
      split_ifs with h
      · simp [StoreEffect, World.print]
      · apply save_effect
        rw [deleteLoop_eq]
        exact List.Nodup.sublist (List.Sublist.map _ (List.filter_sublist _)) hnd

/-- C2 (counterexample): a collection holding the largest and the smallest
representable id has pairwise distinct IDs, and after add the stored collection
has the smallest id twice. -/
theorem add_duplicates_id_after_wrap :
    (LoadTasks refCodec
      { file := refCodec.marshal [⟨maxInt, "a", "todo", 0, 0⟩, ⟨minInt, "b", "todo", 0, 0⟩] }).1
      = .ok [⟨maxInt, "a", "todo", 0, 0⟩, ⟨minInt, "b", "todo", 0, 0⟩] ∧
    (ids [⟨maxInt, "a", "todo", 0, 0⟩, ⟨minInt, "b", "todo", 0, 0⟩]).Nodup ∧
    inIntRange maxInt ∧ inIntRange minInt ∧
    (LoadTasks refCodec
      (Handler.Run refCodec 5 ["add", "x"]
        (World.init
          { file := refCodec.marshal
              [⟨maxInt, "a", "todo", 0, 0⟩, ⟨minInt, "b", "todo", 0, 0⟩] })).disk).1
      = .ok [⟨maxInt, "a", "todo", 0, 0⟩, ⟨minInt, "b", "todo", 0, 0⟩, ⟨minInt, "x", "todo", 5, 5⟩] ∧
    ¬ (ids [⟨maxInt, "a", "todo", 0, 0⟩, ⟨minInt, "b", "todo", 0, 0⟩,
            ⟨minInt, "x", "todo", 5, 5⟩]).Nodup := by
  decide

/-- C2 (amended): for every argument vector and every loaded collection whose
IDs are pairwise distinct and all below the largest representable integer,
`Run` either leaves the disk as it was, or as the load left it, or saves a
collection whose IDs are pairwise distinct; every collection it passes to
`SaveTasks` has pairwise distinct IDs; and the id add computes differs from
every ID of the collection. -/
theorem run_keeps_ids_distinct (c : Codec) (now : Time) (args : List String) (w : World)
    (ts : List Task) (d : Disk)
    (hload : LoadTasks c w.disk = (.ok ts, d)) (hnd : (ids ts).Nodup)
    (hb : ∀ t ∈ ts, t.ID < maxInt) :
    StoreEffect c w d (Handler.Run c now args w) ∧
    (∀ saved, StoreCall.save saved ∈ (Handler.Run c now args w).trace →
      StoreCall.save saved ∈ w.trace ∨ (ids saved).Nodup) ∧
    getNextID ts ∉ ids ts := by
  have heff : StoreEffect c w d (Handler.Run c now args w) := by
    unfold Handler.Run
    split
    · simp [Handler.PrintHelp, StoreEffect, World.print]
    · split_ifs
      · exact add_effect c now _ w ts d hload hnd hb
      · exact list_effect c _ w ts d hload
      · exact update_effect c now _ w ts d hload hnd
      · exact delete_effect c _ w ts d hload hnd
      · exact mark_effect c now _ _ w ts d hload hnd
      · exact mark_effect c now _ _ w ts d hload hnd
      · simp [Handler.PrintHelp, StoreEffect, World.print]
      · simp [Handler.PrintHelp, StoreEffect, World.print]
  refine ⟨heff, ?_, getNextID_not_mem ts hb⟩
  intro saved hmem
  rcases heff with ⟨-, h⟩ | ⟨-, h⟩ | ⟨s1, hs1, -, h⟩
  · rw [h] at hmem; exact Or.inl hmem
  · rw [h] at hmem
    simp only [List.mem_append, List.mem_singleton, reduceCtorEq, or_false] at hmem
    exact Or.inl hmem
  · rw [h] at hmem
    simp only [List.mem_append, List.mem_cons, reduceCtorEq, StoreCall.save.injEq,
      List.not_mem_nil, or_false, false_or] at hmem
    rcases hmem with h1 | h1
    · exact Or.inl h1
    · rw [h1]; exact Or.inr hs1

/-- Witness for C2 (amended): add on a file with two tasks. -/
theorem run_keeps_ids_distinct_witness :
    StoreEffect refCodec
      (World.init { file := refCodec.marshal [⟨1, "a", "done", 0, 3⟩, ⟨2, "b", "todo", 1, 1⟩] })
      { file := refCodec.marshal [⟨1, "a", "done", 0, 3⟩, ⟨2, "b", "todo", 1, 1⟩] }
      (Handler.Run refCodec 9 ["add", "c"]
        (World.init { file := refCodec.marshal [⟨1, "a", "done", 0, 3⟩, ⟨2, "b", "todo", 1, 1⟩] })) ∧
    (∀ saved, StoreCall.save saved ∈ (Handler.Run refCodec 9 ["add", "c"]
        (World.init
          { file := refCodec.marshal [⟨1, "a", "done", 0, 3⟩, ⟨2, "b", "todo", 1, 1⟩] })).trace →
      StoreCall.save saved ∈
        (World.init
          { file := refCodec.marshal [⟨1, "a", "done", 0, 3⟩, ⟨2, "b", "todo", 1, 1⟩] }).trace ∨
      (ids saved).Nodup) ∧
    getNextID [⟨1, "a", "done", 0, 3⟩, ⟨2, "b", "todo", 1, 1⟩]
      ∉ ids [⟨1, "a", "done", 0, 3⟩, ⟨2, "b", "todo", 1, 1⟩] :=
  run_keeps_ids_distinct refCodec 9 ["add", "c"]
    (World.init { file := refCodec.marshal [⟨1, "a", "done", 0, 3⟩, ⟨2, "b", "todo", 1, 1⟩] })
    [⟨1, "a", "done", 0, 3⟩, ⟨2, "b", "todo", 1, 1⟩]
    { file := refCodec.marshal [⟨1, "a", "done", 0, 3⟩, ⟨2, "b", "todo", 1, 1⟩] }
    (by decide) (by decide) (by decide)

/-! ## Sequences of invocations -/

theorem level_load (c : Codec) (hc : c.Lawful) (d : Disk) :
    level c (LoadTasks c d).2 = level c d := by
  cases hf : d.file with
  | none =>
    have h1 : LoadTasks c d = (.ok [], { file := some emptyArrayBytes }) := LoadTasks_absent c d hf
    have h2 : LoadTasks c { file := some emptyArrayBytes } = (.ok [], { file := some emptyArrayBytes }) := by
      have hu := hc.2
      simp only [emptyArrayBytes] at hu
      simp [LoadTasks, hu, emptyArrayBytes]
    simp [level, stored, h1, h2]
  | some data =>
    rw [LoadTasks_disk_of_exists c d (by simp [hf])]

theorem level_of_ok (c : Codec) (d d1 : Disk) (ts : List Task)
    (h : LoadTasks c d = (.ok ts, d1)) : level c d = maxIDOrZero ts := by
  simp [level, stored, h]

theorem level_saved (c : Codec) (hc : c.Lawful) (saved : List Task) (data : Bytes)
    (h : c.marshal saved = some data) : level c { file := some data } = maxIDOrZero saved := by
  obtain ⟨hne, hdec⟩ := hc.1 saved data h
  simp [level, stored, LoadTasks, hne, hdec]

theorem addedID_lines (ts : List Task) : addedID (ts.map lineOf) = none := by
  induction ts with
  | nil => rfl
  | cons t ts ih => simpa [addedID, lineOf] using ih

theorem level_after_save (c : Codec) (hc : c.Lawful) (d d1 : Disk) (saved : List Task)
    (okMsg : Msg) (w1 : World) (hd1 : level c d1 = level c d)
    (h : SavesAfterLoad c (World.init d) d1 saved okMsg w1) :
    (w1.out = [Msg.errorSaving StoreErr.encode] ∧ level c w1.disk = level c d) ∨
    (w1.out = [okMsg] ∧ level c w1.disk = maxIDOrZero saved) := by
  obtain ⟨-, hsome, hnone⟩ := h
  cases hm : c.marshal saved with
  | none =>
    obtain ⟨h1, h2⟩ := hnone hm
    left
    exact ⟨by simpa [World.init] using h2, by rw [h1, hd1]⟩
  | some data =>
    obtain ⟨h1, h2⟩ := hsome data hm
    right
    exact ⟨by simpa [World.init] using h2, by rw [h1, level_saved c hc saved data hm]⟩

theorem add_level (c : Codec) (hc : c.Lawful) (now : Time) (args : List String) (d : Disk)
    (hb : level c d < maxInt) : LevelStep c d (Handler.Add c now args (World.init d)) := by
  unfold Handler.Add
  by_cases h1 : args.length < 1
  · simp [h1, LevelStep, World.print, World.init, addedID]
  · by_cases h2 : TrimSpace (Join args " ") = ""
    · simp [h1, h2, LevelStep, World.print, World.init, addedID]
    · have hd1 := level_load c hc d
      cases hl : LoadTasks c d with
      | mk r d1 =>
        rw [hl] at hd1
        cases r with
        | error e =>
          simp [h1, h2, World.load, hl, LevelStep, World.print, World.init, addedID]
          exact hd1
        | ok ts =>
          have hlev := level_of_ok c d d1 ts hl
          have hnext : getNextID ts = maxIDOrZero ts + 1 := by
            rw [getNextID_eq_wrap]
            have := maxIDOrZero_nonneg ts
            apply wrapInt_of_inRange
            · simp only [minInt]; omega
            · rw [hlev] at hb; omega
          simp only [h1, h2, if_false, load_eq c (World.init d) ts d1 hl, hnext]
          rcases level_after_save c hc d d1 _ _ _ hd1 (save_print c (World.init d) d1
            (ts ++ [{ ID := maxIDOrZero ts + 1, Description := TrimSpace (Join args " "),
                      Status := StatusTodo, CreatedAt := now, UpdatedAt := now }])
            (.added (maxIDOrZero ts + 1))) with ⟨ho, hlv⟩ | ⟨ho, hlv⟩
          · left
            exact ⟨by rw [ho]; rfl, hlv⟩
          · right
            refine ⟨by rw [ho, hlev]; rfl, ?_⟩
            rw [hlv, maxIDOrZero_append_singleton, hlev]
            show max (maxIDOrZero ts) (maxIDOrZero ts + 1) = maxIDOrZero ts + 1
            exact max_eq_right (by omega)

theorem list_level (c : Codec) (hc : c.Lawful) (args : List String) (d : Disk) :
    LevelStep c d (Handler.ListCmd c args (World.init d)) := by
  have hd1 := level_load c hc d
  refine Or.inl ?_
  unfold Handler.ListCmd
  cases hl : LoadTasks c d with
  | mk r d1 =>
    rw [hl] at hd1
    cases r with
    | error e =>
      simp [World.load, hl, World.print, World.init, addedID]
      exact hd1
    | ok ts =>
      simp only [load_eq c (World.init d) ts d1 hl, printLoop_out]
      split
      · simp [World.print, World.init, addedID]
        exact hd1
      · split_ifs
        · simp [World.print, World.init, addedID]
          exact hd1
        · simp only [World.init, List.nil_append, addedID_lines]
          exact ⟨trivial, hd1⟩

theorem setFirst_level (c : Codec) (hc : c.Lawful) (d d1 : Disk) (ts : List Task) (id : Int)
    (f : Task → Task) (hf : ∀ t, (f t).ID = t.ID) (okMsg : Msg) (hok : addedID [okMsg] = none)
    (hl : LoadTasks c d = (.ok ts, d1)) :
    LevelStep c d
      (if (!(setFirst id f ts).2) = true then
        World.print { World.init d with disk := d1,
                                        trace := (World.init d).trace ++ [StoreCall.load] } .notFound
      else
        match World.save c (setFirst id f ts).1
            { World.init d with disk := d1,
                                trace := (World.init d).trace ++ [StoreCall.load] } with
        | (some e, w2) => w2.print (.errorSaving e)
        | (none, w2) => w2.print okMsg) := by
  have hd1 := level_load c hc d
  rw [hl] at hd1
  refine Or.inl ?_
  split_ifs with h
  · simp [World.print, World.init, addedID]
    exact hd1
  · rcases level_after_save c hc d d1 _ okMsg _ hd1
      (save_print c (World.init d) d1 (setFirst id f ts).1 okMsg) with ⟨ho, hlv⟩ | ⟨ho, hlv⟩
    · exact ⟨by rw [ho]; rfl, hlv⟩
    · refine ⟨by rw [ho]; exact hok, ?_⟩
      rw [hlv, maxIDOrZero_congr _ ts (setFirst_ids id f hf ts), level_of_ok c d d1 ts hl]

theorem update_level (c : Codec) (hc : c.Lawful) (now : Time) (args : List String) (d : Disk) :
    LevelStep c d (Handler.Update c now args (World.init d)) := by
  match args with
  | [] => simp [Handler.Update, LevelStep, World.print, World.init, addedID]
  | [_] => simp [Handler.Update, LevelStep, World.print, World.init, addedID]
  | a :: x :: xs =>
    simp only [Handler.Update]
    cases hat : atoi a with
    | none => simp [LevelStep, World.print, World.init, addedID]
    | some id =>
      by_cases h2 : TrimSpace (Join (x :: xs) " ") = ""
      · simp [h2, LevelStep, World.print, World.init, addedID]
      · have hd1 := level_load c hc d
        cases hl : LoadTasks c d with
        | mk r d1 =>
          rw [hl] at hd1
          cases r with
          | error e =>
            simp [h2, World.load, hl, LevelStep, World.print, World.init, addedID]
            exact hd1
          | ok ts =>
            simp only [h2, if_false, load_eq c (World.init d) ts d1 hl]
            refine setFirst_level c hc d d1 ts id _ ?_ _ rfl hl
            intro t
            rfl

theorem mark_level (c : Codec) (hc : c.Lawful) (now : Time) (args : List String)
    (status : TaskStatus) (d : Disk) :
    LevelStep c d (Handler.MarkStatus c now args status (World.init d)) := by
  match args with
  | [] => simp [Handler.MarkStatus, LevelStep, World.print, World.init, addedID]
  | a :: rest =>
    simp only [Handler.MarkStatus]
    cases hat : atoi a with
    | none => simp [LevelStep, World.print, World.init, addedID]
    | some id =>
      have hd1 := level_load c hc d
      cases hl : LoadTasks c d with
      | mk r d1 =>
        rw [hl] at hd1
        cases r with
        | error e =>
          simp [World.load, hl, LevelStep, World.print, World.init, addedID]
          exact hd1
        | ok ts =>
          simp only [load_eq c (World.init d) ts d1 hl]
          refine setFirst_level c hc d d1 ts id _ ?_ _ rfl hl
          intro t
          rfl

theorem run_level (c : Codec) (hc : c.Lawful) (now : Time) (args : List String) (d : Disk)
    (hnodel : args.head? ≠ some "delete") (hb : level c d < maxInt) :
    LevelStep c d (Handler.Run c now args (World.init d)) := by
  match args with
  | [] => simp [Handler.Run, Handler.PrintHelp, LevelStep, World.print, World.init, addedID]
  | cmd :: rest =>
    simp only [Handler.Run]
    split_ifs with h1 h2 h3 h4 h5 h6 h7
    · exact add_level c hc now rest d hb
    · exact list_level c hc rest d
    · exact update_level c hc now rest d
    · exact absurd (by rw [h4]; rfl) hnodel
    · exact mark_level c hc now rest _ d
    · exact mark_level c hc now rest _ d
    · simp [Handler.PrintHelp, LevelStep, World.print, World.init, addedID]
    · simp [Handler.PrintHelp, LevelStep, World.print, World.init, addedID]

theorem runSeq_increasing (c : Codec) (hc : c.Lawful) (cmds : List (Time × List String)) :
    ∀ d : Disk, (∀ cmd ∈ cmds, cmd.2.head? ≠ some "delete") →
      level c d + cmds.length < maxInt →
      (assignedIDs (runSeq c cmds d).1).Pairwise (fun a b => a < b) ∧
      ∀ a ∈ assignedIDs (runSeq c cmds d).1, level c d < a := by
  induction cmds with
  | nil =>
    intro d _ _
    simp [runSeq, assignedIDs]
  | cons cmd cmds ih =>
    intro d hnodel hlen
    obtain ⟨now, args⟩ := cmd
    have hlen1 : level c d + (cmds.length : Int) + 1 < maxInt := by
      simpa [add_assoc] using hlen
    have hstep := run_level c hc now args d (hnodel (now, args) (List.mem_cons_self _ _))
      (by omega)
    have hrest : ∀ cmd ∈ cmds, cmd.2.head? ≠ some "delete" :=
      fun x hx => hnodel x (List.mem_cons_of_mem _ hx)
    rcases hstep with ⟨ho, hlv⟩ | ⟨ho, hlv⟩
    · obtain ⟨ih1, ih2⟩ := ih (Handler.Run c now args (World.init d)).disk hrest
        (by rw [hlv]; omega)
      have heq : assignedIDs (runSeq c ((now, args) :: cmds) d).1
          = assignedIDs (runSeq c cmds (Handler.Run c now args (World.init d)).disk).1 := by
        simp [runSeq, assignedIDs, List.filterMap_cons, ho]
      rw [heq]
      refine ⟨ih1, ?_⟩
      intro a ha
      have := ih2 a ha
      rw [hlv] at this
      exact this
    · obtain ⟨ih1, ih2⟩ := ih (Handler.Run c now args (World.init d)).disk hrest
        (by rw [hlv]; omega)
      have heq : assignedIDs (runSeq c ((now, args) :: cmds) d).1
          = (level c d + 1) ::
            assignedIDs (runSeq c cmds (Handler.Run c now args (World.init d)).disk).1 := by
        simp [runSeq, assignedIDs, List.filterMap_cons, ho]
      rw [heq]
      refine ⟨List.pairwise_cons.mpr ⟨?_, ih1⟩, ?_⟩
      · intro a ha
        have := ih2 a ha
        rw [hlv] at this
        exact this
      · intro a ha
        rcases List.mem_cons.mp ha with h | h
        · rw [h]; omega
        · have := ih2 a h
          rw [hlv] at this
          omega

/-! ## Ids assigned by add -/

/-- C1 (counterexample): from an absent file, add, add, delete 2, add assigns
the ids 1, 2 and 2: the id of the deleted task is assigned again, and the ids
are not strictly increasing. -/
theorem add_reuses_id_after_delete :
    assignedIDs (runSeq refCodec
      [(1, ["add", "a"]), (2, ["add", "b"]), (3, ["delete", "2"]), (4, ["add", "c"])]
      { file := none }).1 = [1, 2, 2] ∧
    ¬ (assignedIDs (runSeq refCodec
      [(1, ["add", "a"]), (2, ["add", "b"]), (3, ["delete", "2"]), (4, ["add", "c"])]
      { file := none }).1).Pairwise (fun a b => a < b) := by
  decide

/-- C1 (amended): for every sequence of fewer than 2^63 - 1 invocations none of
which is a delete command, run from an absent file over a codec that gives
every collection back, the ids assigned by the successful add commands are
strictly increasing, so that no id is assigned twice. -/
theorem add_ids_increasing_without_delete (c : Codec) (hc : c.Lawful)
    (cmds : List (Time × List String))
    (hnodel : ∀ cmd ∈ cmds, cmd.2.head? ≠ some "delete")
    (hlen : (cmds.length : Int) < maxInt) :
    (assignedIDs (runSeq c cmds { file := none }).1).Pairwise (fun a b => a < b) := by
  have h0 : level c { file := none } = 0 := by
    simp [level, stored, LoadTasks, maxIDOrZero]
  exact (runSeq_increasing c hc cmds { file := none } hnodel (by rw [h0]; omega)).1

/-- Witness for C1 (amended): add, mark-done 1, add, list, update 2, add. -/
theorem add_ids_increasing_without_delete_witness :
    (assignedIDs (runSeq refCodec
      [(1, ["add", "a"]), (2, ["mark-done", "1"]), (3, ["add", "b"]), (4, ["list"]),
       (5, ["update", "2", "c"]), (6, ["add", "d"])]
      { file := none }).1).Pairwise (fun a b => a < b) :=
  add_ids_increasing_without_delete refCodec refCodec_lawful
    [(1, ["add", "a"]), (2, ["mark-done", "1"]), (3, ["add", "b"]), (4, ["list"]),
     (5, ["update", "2", "c"]), (6, ["add", "d"])]
    (by decide) (by decide)


/-! ## The JSON codec gives back what it wrote, up to ill-formed UTF-8 -/

theorem hexVal_hexDigit : ∀ n, n < 16 → hexVal (hexDigit n) = some n := by decide

theorem utf8Width_ascii (b : Nat) (r : Bytes) (h : b < 0x80) : utf8Width (b :: r) = 1 := by
  simp [utf8Width, h]

theorem width2_take (r tail : Bytes) (w : Nat) (h : width2 r = w + 1) :
    (r.take w).length = w ∧ width2 (r.take w ++ tail) = w + 1 := by
  rcases r with _ | ⟨b1, r⟩
  · simp [width2] at h
  · simp only [width2] at h
    split_ifs at h with hc
    · simp at h; subst h; simp [width2, hc]

theorem width3_take (b0 : Nat) (r tail : Bytes) (w : Nat) (h : width3 b0 r = w + 1) :
    (r.take w).length = w ∧ width3 b0 (r.take w ++ tail) = w + 1 := by
  rcases r with _ | ⟨b1, _ | ⟨b2, r⟩⟩
  · simp [width3] at h
  · simp [width3] at h
  · simp only [width3] at h
    split_ifs at h with hc
    · simp at h; subst h; simp [width3, hc]

theorem width4_take (b0 : Nat) (r tail : Bytes) (w : Nat) (h : width4 b0 r = w + 1) :
    (r.take w).length = w ∧ width4 b0 (r.take w ++ tail) = w + 1 := by
  rcases r with _ | ⟨b1, _ | ⟨b2, _ | ⟨b3, r⟩⟩⟩
  · simp [width4] at h
  · simp [width4] at h
  · simp [width4] at h
  · simp only [width4] at h
    split_ifs at h with hc
    · simp at h; subst h; simp [width4, hc]

theorem utf8Width_take (b : Nat) (r tail : Bytes) (w : Nat) (h : utf8Width (b :: r) = w + 1) :
    (r.take w).length = w ∧ utf8Width (b :: (r.take w ++ tail)) = w + 1 := by
  simp only [utf8Width] at h ⊢
  split_ifs at h ⊢ with h1 h2 h3 h4
  · simp at h; subst h; simp
  · exact width2_take r tail w h
  · exact width3_take b r tail w h
  · exact width4_take b r tail w h

theorem escapeStep_ascii (b : Nat) (hb : b < 0x80) (tail : Bytes) :
    unquoteStep (escapeASCII b ++ tail) = some (some [b], tail) := by
  unfold escapeASCII
  split_ifs with h1 h2 h3 h4 h5 h6 h7
  · rcases h1 with h | h <;> subst h <;> simp [unquoteStep, escapeStep]
  · subst h2; simp [unquoteStep, escapeStep]
  · subst h3; simp [unquoteStep, escapeStep]
  · subst h4; simp [unquoteStep, escapeStep]
  · subst h5; simp [unquoteStep, escapeStep]
  · subst h6; simp [unquoteStep, escapeStep]
  · have hx : hexVal (hexDigit (b / 16)) = some (b / 16) := hexVal_hexDigit _ (by omega)
    have hy : hexVal (hexDigit (b % 16)) = some (b % 16) := hexVal_hexDigit _ (by omega)
    have h0 : hexVal 48 = some 0 := by decide
    have hv : 16 * (b / 16) + b % 16 = b := by omega
    have hs : ¬ (0xD800 ≤ b ∧ b < 0xE000) := by omega
    simp [unquoteStep, escapeStep, unicodeStep, getu4, h0, hx, hy, hv, hs, encodeRune, hb]
  · have ha : ¬ b = 0x22 := fun h => h1 (Or.inl h)
    have hbs : ¬ b = 0x5C := fun h => h1 (Or.inr h)
    have hc : ¬ b < 0x20 := fun h => h7 (Or.inl h)
    simp [unquoteStep, ha, hbs, hc, hb]

theorem unquoteStep_bad (tail : Bytes) :
    unquoteStep ([0x5C, 117, 102, 102, 102, 100] ++ tail)
      = some (some [0xEF, 0xBF, 0xBD], tail) := by
  have h1 : hexVal 102 = some 15 := by decide
  have h2 : hexVal 100 = some 13 := by decide
  simp [unquoteStep, escapeStep, unicodeStep, getu4, h1, h2, encodeRune]

theorem unquoteStep_2028 (tail : Bytes) :
    unquoteStep ([0x5C, 117, 50, 48, 50, 56] ++ tail) = some (some [0xE2, 0x80, 0xA8], tail) := by
  have h1 : hexVal 50 = some 2 := by decide
  have h2 : hexVal 48 = some 0 := by decide
  have h3 : hexVal 56 = some 8 := by decide
  simp [unquoteStep, escapeStep, unicodeStep, getu4, h1, h2, h3, encodeRune]

theorem unquoteStep_2029 (tail : Bytes) :
    unquoteStep ([0x5C, 117, 50, 48, 50, 57] ++ tail) = some (some [0xE2, 0x80, 0xA9], tail) := by
  have h1 : hexVal 50 = some 2 := by decide
  have h2 : hexVal 48 = some 0 := by decide
  have h3 : hexVal 57 = some 9 := by decide
  simp [unquoteStep, escapeStep, unicodeStep, getu4, h1, h2, h3, encodeRune]

theorem unquoteStep_raw (b : Nat) (r : Bytes) (w : Nat) (hb : ¬ b < 0x80)
    (h : utf8Width (b :: r) = w + 1) (tail : Bytes) :
    unquoteStep ((b :: r.take w) ++ tail) = some (some (b :: r.take w), tail) := by
  obtain ⟨hlen, hw⟩ := utf8Width_take b r tail w h
  have ha : ¬ b = 0x22 := by omega
  have hbs : ¬ b = 0x5C := by omega
  have hc : ¬ b < 0x20 := by omega
  have htake : (r.take w ++ tail).take w = r.take w := by
    rw [List.take_append_of_le_length (by omega), List.take_of_length_le (by omega)]
  have hdrop : (r.take w ++ tail).drop w = tail := by
    have := List.drop_left (r.take w) tail
    rwa [hlen] at this
  simp only [List.cons_append, unquoteStep, ha, hbs, hc, hb, if_false, hw, htake, hdrop]

theorem unquoteLoop_step (f : Nat) (s : Bytes) (bs rest : Bytes)
    (h : unquoteStep s = some (some bs, rest)) :
    unquoteLoop (f + 1) s = emit bs (unquoteLoop f rest) := by
  simp only [unquoteLoop, h]

theorem unquoteLoop_quote (f : Nat) (rest : Bytes) :
    unquoteLoop (f + 1) (0x22 :: rest) = some ([], rest) := by
  simp [unquoteLoop, unquoteStep]

theorem unquote_escape (g : Nat) : ∀ (s : Bytes) (f : Nat) (rest : Bytes), s.length ≤ g →
    (escapeLoop g s).length < f →
    unquoteLoop f (escapeLoop g s ++ 0x22 :: rest) = some (coerceLoop g s, rest) := by
  induction g with
  | zero =>
    intro s f rest hs hf
    cases f with
    | zero => omega
    | succ f => simp only [escapeLoop, coerceLoop, List.nil_append, unquoteLoop_quote]
  | succ g ih =>
    intro s f rest hs hf
    cases f with
    | zero => omega
    | succ f =>
      cases s with
      | nil => simp only [escapeLoop, coerceLoop, List.nil_append, unquoteLoop_quote]
      | cons b r =>
        have hr : r.length ≤ g := by simpa using hs
        by_cases hb : b < 0x80
        · simp only [escapeLoop, coerceLoop, hb, if_true, List.append_assoc] at hf ⊢
          have hpos : 1 ≤ (escapeASCII b).length := by
            unfold escapeASCII; split_ifs <;> simp
          rw [unquoteLoop_step f _ _ _ (escapeStep_ascii b hb _),
            ih r f rest hr (by rw [List.length_append] at hf; omega)]
          rfl
        · cases hw : utf8Width (b :: r) with
          | zero =>
            simp only [escapeLoop, coerceLoop, hb, if_false, hw, List.append_assoc] at hf ⊢
            rw [unquoteLoop_step f _ _ _ (unquoteStep_bad _),
              ih r f rest hr (by rw [List.length_append] at hf; simp at hf; omega)]
            rfl
          | succ w =>
            have hdl : (r.drop w).length ≤ g := by rw [List.length_drop]; omega
            simp only [escapeLoop, coerceLoop, hb, if_false, hw] at hf ⊢
            split_ifs at hf ⊢ with h1 h2
            · rw [List.append_assoc, unquoteLoop_step f _ _ _ (unquoteStep_2028 _),
                ih _ f rest hdl (by rw [List.length_append] at hf; simp at hf; omega), h1]
              rfl
            · rw [List.append_assoc, unquoteLoop_step f _ _ _ (unquoteStep_2029 _),
                ih _ f rest hdl (by rw [List.length_append] at hf; simp at hf; omega), h2]
              rfl
            · rw [List.append_assoc, unquoteLoop_step f _ _ _ (unquoteStep_raw b r w hb hw _),
                ih _ f rest hdl (by rw [List.length_append] at hf; simp at hf; omega)]
              rfl

theorem pString_jsonString (s rest : Bytes) :
    pString (jsonString s ++ rest) = some (coerceUTF8 s, rest) := by
  have he : expect [0x22] (jsonString s ++ rest)
      = some (escapeLoop s.length s ++ 0x22 :: rest) := by
    simp [jsonString, expect]
  simp only [pString, he, coerceUTF8]
  exact unquote_escape s.length s _ rest (le_refl _) (by simp)

theorem coerceLoop_valid (g : Nat) : ∀ s : Bytes, s.length ≤ g → validLoop g s = true →
    coerceLoop g s = s := by
  induction g with
  | zero =>
    intro s hs _
    have : s = [] := List.length_eq_zero.mp (by omega)
    subst this; rfl
  | succ g ih =>
    intro s hs hv
    cases s with
    | nil => rfl
    | cons b r =>
      have hr : r.length ≤ g := by simpa using hs
      by_cases hb : b < 0x80
      · have hw := utf8Width_ascii b r hb
        simp only [validLoop, hw, List.drop_zero] at hv
        simp only [coerceLoop, hb, if_true, ih r hr hv]
      · cases hw : utf8Width (b :: r) with
        | zero => simp [validLoop, hw] at hv
        | succ w =>
          simp only [validLoop, hw] at hv
          have hdl : (r.drop w).length ≤ g := by simp; omega
          simp only [coerceLoop, hb, if_false, hw, ih _ hdl hv, List.cons_append,
            List.take_append_drop]

theorem coerceUTF8_valid (s : Bytes) (h : validUTF8 s = true) : coerceUTF8 s = s :=
  coerceLoop_valid s.length s (le_refl _) h


/-! ### Integers -/

theorem natText_digits (f : Nat) : ∀ n, ∀ d ∈ natText f n, isDigitByte d = true := by
  induction f with
  | zero => intro n d hd; simp [natText] at hd
  | succ f ih =>
    intro n d hd
    simp only [natText] at hd
    split_ifs at hd with h
    · simp only [List.mem_singleton] at hd
      subst hd
      simp [isDigitByte]; omega
    · rcases List.mem_append.mp hd with h1 | h1
      · exact ih _ d h1
      · simp only [List.mem_singleton] at h1
        subst h1
        simp [isDigitByte]; omega

theorem natText_ne_nil (f n : Nat) : natText (f + 1) n ≠ [] := by
  simp only [natText]
  split_ifs <;> simp

theorem digitsValue_append (a : Bytes) (d : Nat) :
    digitsValue (a ++ [d]) = 10 * digitsValue a + (d - 48) := by
  simp [digitsValue, List.foldl_append]

theorem digitsValue_natText (f : Nat) : ∀ n, n < f → digitsValue (natText f n) = n := by
  induction f with
  | zero => intro n h; omega
  | succ f ih =>
    intro n hn
    simp only [natText]
    split_ifs with h
    · simp [digitsValue]
    · rw [digitsValue_append, ih (n / 10) (by omega)]
      omega

theorem natText_head (f : Nat) : ∀ n, 1 ≤ n → n < f → (natText f n).head? ≠ some 48 := by
  induction f with
  | zero => intro n _ h; omega
  | succ f ih =>
    intro n h1 hn
    simp only [natText]
    split_ifs with h
    · simp; omega
    · have hne : natText f (n / 10) ≠ [] := by
        cases f with
        | zero => omega
        | succ f => exact natText_ne_nil f _
      rw [List.head?_append_of_ne_nil _ hne]
      exact ih (n / 10) (by omega) (by omega)

theorem natText_length_small (f n : Nat) (h : n < 10) : (natText (f + 1) n).length = 1 := by
  simp [natText, h]

theorem takeDigits_append (ds rest : Bytes) (hd : ∀ d ∈ ds, isDigitByte d = true)
    (hr : ∀ b ∈ rest.head?, isDigitByte b = false) : takeDigits (ds ++ rest) = (ds, rest) := by
  induction ds with
  | nil =>
    cases rest with
    | nil => rfl
    | cons b r =>
      have : isDigitByte b = false := hr b (by simp)
      simp [takeDigits, this]
  | cons d ds ih =>
    have h1 : isDigitByte d = true := hd d (List.mem_cons_self _ _)
    have h2 := ih (fun x hx => hd x (List.mem_cons_of_mem _ hx))
    simp [takeDigits, h1, h2]

theorem pNat_natText (n : Nat) (rest : Bytes) (hr : ∀ b ∈ rest.head?, isDigitByte b = false) :
    pNat (natText (n + 1) n ++ rest) = some (n, rest) := by
  have htd := takeDigits_append (natText (n + 1) n) rest (natText_digits _ n) hr
  have hne := natText_ne_nil n n
  have hlead : ¬ ((natText (n + 1) n).head? = some 48 ∧ 1 < (natText (n + 1) n).length) := by
    intro ⟨h1, h2⟩
    by_cases h0 : n = 0
    · subst h0; simp [natText] at h2
    · exact natText_head (n + 1) n (by omega) (by omega) h1
  simp only [pNat, htd, hne, if_false, hlead, digitsValue_natText (n + 1) n (by omega)]

theorem expect_digit (n : Nat) (rest : Bytes) : expect [45] (natText (n + 1) n ++ rest) = none := by
  have hne := natText_ne_nil n n
  cases h : natText (n + 1) n with
  | nil => exact absurd h hne
  | cons d ds =>
    have hd : isDigitByte d = true := natText_digits (n + 1) n d (by rw [h]; exact List.mem_cons_self _ _)
    have : ¬ 45 = d := by
      intro hh; subst hh; simp [isDigitByte] at hd
    simp [expect, this]

theorem pInt_intText (i : Int) (rest : Bytes) (h1 : -9223372036854775808 ≤ i)
    (h2 : i ≤ 9223372036854775807) (hr : ∀ b ∈ rest.head?, isDigitByte b = false) :
    pInt (intText i ++ rest) = some (i, rest) := by
  by_cases hneg : i < 0
  · have he : expect [45] (intText i ++ rest) = some (natText (i.natAbs + 1) i.natAbs ++ rest) := by
      simp [intText, hneg, expect]
    have hle : i.natAbs ≤ 9223372036854775808 := by omega
    have hval : -(i.natAbs : Int) = i := by omega
    simp only [pInt, he, pNat_natText i.natAbs rest hr, hle, if_true, hval]
  · have ht : intText i = natText (i.natAbs + 1) i.natAbs := by
      simp only [intText, hneg, if_false]
    have hle : i.natAbs ≤ 9223372036854775807 := by omega
    have hval : (i.natAbs : Int) = i := by omega
    simp only [pInt, ht, expect_digit, pNat_natText i.natAbs rest hr, hle, if_true, hval]


/-! ### Timestamps -/

theorem pDigits2_pad2 (n : Nat) (rest : Bytes) (h : n < 100) :
    pDigits2 (pad2 n ++ rest) = some (n, rest) := by
  have h1 : isDigitByte (48 + n / 10 % 10) = true := by simp [isDigitByte]; omega
  have h2 : isDigitByte (48 + n % 10) = true := by simp [isDigitByte]; omega
  have hv : (48 + n / 10 % 10 - 48) * 10 + (48 + n % 10 - 48) = n := by omega
  simp only [pad2, List.cons_append, List.nil_append, pDigits2, h1, h2, Bool.and_self, if_true, hv]

theorem pDigits4_pad4 (n : Nat) (rest : Bytes) (h : n < 10000) :
    pDigits4 (pad4 n ++ rest) = some (n, rest) := by
  have h1 : isDigitByte (48 + n / 1000 % 10) = true := by simp [isDigitByte]; omega
  have h2 : isDigitByte (48 + n / 100 % 10) = true := by simp [isDigitByte]; omega
  have h3 : isDigitByte (48 + n / 10 % 10) = true := by simp [isDigitByte]; omega
  have h4 : isDigitByte (48 + n % 10) = true := by simp [isDigitByte]; omega
  have hv : (48 + n / 1000 % 10 - 48) * 1000 + (48 + n / 100 % 10 - 48) * 100
      + (48 + n / 10 % 10 - 48) * 10 + (48 + n % 10 - 48) = n := by omega
  simp only [pad4, List.cons_append, List.nil_append, pDigits4, h1, h2, h3, h4, Bool.and_self,
    if_true, hv]

theorem pFrac_fracText (k : Nat) : ∀ (v : Nat) (rest : Bytes), v < 10 ^ k →
    (∀ b ∈ rest.head?, isDigitByte b = false) → pFrac k (fracText k v ++ rest) = (v, rest) := by
  induction k with
  | zero =>
    intro v rest hv _
    have : v = 0 := by simpa using hv
    subst this
    simp [fracText, pFrac]
  | succ k ih =>
    intro v rest hv hr
    by_cases h0 : v = 0
    · subst h0
      cases rest with
      | nil => simp [fracText, pFrac]
      | cons b r =>
        have : isDigitByte b = false := hr b (by simp)
        simp [fracText, pFrac, this]
    · have hpos : 0 < 10 ^ k := by positivity
      have hq : v / 10 ^ k < 10 := by
        rw [Nat.div_lt_iff_lt_mul hpos]
        rw [pow_succ] at hv
        omega
      have hmod : v / 10 ^ k % 10 = v / 10 ^ k := Nat.mod_eq_of_lt hq
      have hd : isDigitByte (48 + v / 10 ^ k % 10) = true := by simp [isDigitByte]; omega
      have hrec := ih (v % 10 ^ k) rest (Nat.mod_lt _ hpos) hr
      have hsum : (48 + v / 10 ^ k % 10 - 48) * 10 ^ k + v % 10 ^ k = v := by
        rw [hmod, Nat.add_sub_cancel_left]
        exact Nat.div_add_mod' v (10 ^ k)
      simp only [fracText, h0, if_false, List.cons_append, pFrac, hd, if_true, hrec, hsum]

theorem fracText_head (v : Nat) (h0 : v ≠ 0) (rest : Bytes) :
    ((fracText 9 v ++ rest).head?.map isDigitByte) = some true := by
  simp only [fracText, h0, if_false, List.cons_append, List.head?_cons, Option.map_some']
  congr 1
  simp [isDigitByte]; omega

theorem zoneText_head (offset : Int) (rest : Bytes) :
    ∃ z r, zoneText offset ++ rest = z :: r ∧ isDigitByte z = false ∧ z ≠ 46 := by
  unfold zoneText
  split_ifs with h1 h2
  · exact ⟨90, rest, rfl, by decide, by decide⟩
  · exact ⟨45, _, rfl, by decide, by decide⟩
  · exact ⟨43, _, rfl, by decide, by decide⟩

theorem pFraction_text (ns : Nat) (offset : Int) (rest : Bytes) (h : ns < 1000000000) :
    pFraction ((if ns = 0 then [] else 46 :: fracText 9 ns) ++ (zoneText offset ++ rest))
      = (ns, zoneText offset ++ rest) := by
  obtain ⟨z, r, hz, hzd, hz46⟩ := zoneText_head offset rest
  by_cases h0 : ns = 0
  · subst h0
    have : ¬ 46 = z := fun hh => hz46 hh.symm
    simp [pFraction, hz, expect, this]
  · have hr : ∀ b ∈ (zoneText offset ++ rest).head?, isDigitByte b = false := by
      intro b hb
      rw [hz] at hb
      simp only [List.head?_cons, Option.mem_def, Option.some.injEq] at hb
      subst hb
      exact hzd
    have hp := pFrac_fracText 9 ns (zoneText offset ++ rest) (by norm_num; exact h) hr
    have htd : takeDigits (zoneText offset ++ rest) = ([], zoneText offset ++ rest) :=
      takeDigits_append [] _ (by simp) hr
    have he : expect [46] (46 :: (fracText 9 ns ++ (zoneText offset ++ rest)))
        = some (fracText 9 ns ++ (zoneText offset ++ rest)) := by
      simp [expect]
    simp only [pFraction, h0, if_false, List.cons_append, he, fracText_head ns h0, if_true, hp, htd]

theorem pZone_zoneText (offset : Int) (rest : Bytes) (h : offset.natAbs < 1440) :
    pZone (zoneText offset ++ rest) = some (offset, rest) := by
  by_cases h0 : offset = 0
  · subst h0
    simp [zoneText, pZone]
  · have hh : offset.natAbs / 60 < 100 := by omega
    have hm : offset.natAbs % 60 < 100 := by omega
    have hh1 : offset.natAbs / 60 ≤ 23 := by omega
    have hm1 : offset.natAbs % 60 ≤ 59 := by omega
    have hsum : offset.natAbs / 60 * 60 + offset.natAbs % 60 = offset.natAbs := by omega
    have he : ∀ s : Bytes, expect [58] (58 :: s) = some s := by
      intro s; simp [expect]
    by_cases hneg : offset < 0
    · have hv : -((offset.natAbs : Nat) : Int) = offset := by omega
      simp only [zoneText, h0, if_false, hneg, if_true, List.cons_append, List.append_assoc, pZone,
        pDigits2_pad2 _ _ hh, he, pDigits2_pad2 _ _ hm, hh1, hm1, and_self, hsum, hv]
      simp
    · have hv : ((offset.natAbs : Nat) : Int) = offset := by omega
      simp only [zoneText, h0, if_false, hneg, List.cons_append, List.append_assoc, pZone,
        pDigits2_pad2 _ _ hh, he, pDigits2_pad2 _ _ hm, hh1, hm1, and_self, hsum, hv]
      simp

theorem pTime_timeJSON (t : GoTime) (txt rest : Bytes) (hwf : t.WellFormed)
    (h : timeJSON t = some txt) : pTime (txt ++ rest) = some (t, rest) := by
  obtain ⟨m1, m2, d1, d2, hh, hmi, hs, hn⟩ := hwf
  unfold timeJSON at h
  by_cases hbad : 9999 < t.year ∨ 1440 ≤ t.offset.natAbs
  · rw [if_pos hbad] at h
    exact absurd h (by simp)
  rw [if_neg hbad] at h
  simp only [Option.some.injEq] at h
  subst h
  have hy : t.year < 10000 := by omega
  have hoff : t.offset.natAbs < 1440 := by omega
  have hdays : daysIn t.month t.year ≤ 31 := by
    unfold daysIn; split_ifs <;> omega
  have e1 : ∀ (c : Nat) (s : Bytes), expect [c] (c :: s) = some s := by
    intro c s; simp [expect]
  simp only [pTime, List.cons_append, List.append_assoc, e1, pDigits4_pad4 _ _ hy,
    pDigits2_pad2 _ _ (show t.month < 100 by omega), pDigits2_pad2 _ _ (show t.day < 100 by omega),
    pDigits2_pad2 _ _ (show t.hour < 100 by omega), pDigits2_pad2 _ _ (show t.minute < 100 by omega),
    pDigits2_pad2 _ _ (show t.second < 100 by omega), m1, m2, d1, d2, hh, hmi, hs, and_self,
    if_true, pFraction_text _ _ _ hn, pZone_zoneText _ _ hoff, List.singleton_append,
    List.nil_append]


/-! ### Tasks and collections -/

theorem expect_append (l s : Bytes) : expect l (l ++ s) = some s := by
  induction l with
  | nil => cases s <;> rfl
  | cons a l ih => simp [expect, ih]

theorem RawTask.coerce_valid (t : RawTask) (h : t.ValidText) : t.coerce = t := by
  cases t
  simp only [RawTask.coerce, coerceUTF8_valid _ h.1, coerceUTF8_valid _ h.2]

theorem pTask_taskJSON (t : RawTask) (txt rest : Bytes) (hs : t.Sound)
    (h : taskJSON t = some txt) : pTask (txt ++ rest) = some (t.coerce, rest) := by
  obtain ⟨h1, h2, hc, hu⟩ := hs
  unfold taskJSON at h
  cases hct : timeJSON t.CreatedAt with
  | none => simp [hct] at h
  | some c =>
    cases hut : timeJSON t.UpdatedAt with
    | none => simp [hct, hut] at h
    | some u =>
      simp only [hct, hut, Option.some.injEq] at h
      subst h
      have hcomma : ∀ r : Bytes,
          ∀ b ∈ (ascii ",\n    \"description\": " ++ r).head?, isDigitByte b = false := by
        intro r b hb
        have : ascii ",\n    \"description\": " ++ r
            = 44 :: (ascii "\n    \"description\": " ++ r) := rfl
        rw [this] at hb
        simp only [List.head?_cons, Option.mem_def, Option.some.injEq] at hb
        subst hb
        decide
      simp only [pTask, List.append_assoc, expect_append, pInt_intText t.ID _ h1 h2 (hcomma _),
        pString_jsonString, pTime_timeJSON _ _ _ hc hct, pTime_timeJSON _ _ _ hu hut,
        RawTask.coerce]

theorem moreJSON_length (ts : List RawTask) : ∀ txt, moreJSON ts = some txt →
    ts.length ≤ txt.length := by
  induction ts with
  | nil => intro txt _; simp
  | cons t ts ih =>
    intro txt h
    simp only [moreJSON] at h
    cases ha : taskJSON t with
    | none => simp [ha] at h
    | some a =>
      cases hb : moreJSON ts with
      | none => simp [ha, hb] at h
      | some b =>
        simp only [ha, hb, Option.some.injEq] at h
        subst h
        have := ih b hb
        have h4 : (ascii ",\n  ").length = 4 := by decide
        simp only [List.length_append, List.length_cons, h4]
        omega

theorem pMore_moreJSON (ts : List RawTask) : ∀ (txt : Bytes) (f : Nat),
    (∀ t ∈ ts, t.Sound) → moreJSON ts = some txt → ts.length < f →
    pMore f txt = some (ts.map RawTask.coerce) := by
  induction ts with
  | nil =>
    intro txt f _ h hf
    cases f with
    | zero => omega
    | succ f =>
      simp only [moreJSON, Option.some.injEq] at h
      subst h
      simp [pMore]
  | cons t ts ih =>
    intro txt f hs h hf
    cases f with
    | zero => omega
    | succ f =>
      simp only [moreJSON] at h
      cases ha : taskJSON t with
      | none => simp [ha] at h
      | some a =>
        cases hb : moreJSON ts with
        | none => simp [ha, hb] at h
        | some b =>
          simp only [ha, hb, Option.some.injEq] at h
          subst h
          have hne : ¬ (ascii ",\n  " ++ (a ++ b) = ascii "\n]") := by
            have e1 : ascii ",\n  " ++ (a ++ b) = 44 :: (ascii "\n  " ++ (a ++ b)) := rfl
            have e2 : ascii "\n]" = [10, 93] := rfl
            rw [e1, e2]
            simp
          have hrec := ih b f (fun x hx => hs x (List.mem_cons_of_mem _ hx)) hb
            (by simp at hf; omega)
          simp only [pMore, hne, if_false, expect_append,
            pTask_taskJSON t a b (hs t (List.mem_cons_self _ _)) ha, hrec, List.map_cons]

theorem goUnmarshal_goMarshalIndent (x : List RawTask) (data : Bytes)
    (hs : ∀ t ∈ x, t.Sound) (h : goMarshalIndent x = some data) :
    data ≠ [] ∧ goUnmarshal data = some (x.map RawTask.coerce) := by
  cases x with
  | nil =>
    simp only [goMarshalIndent, Option.some.injEq] at h
    subst h
    exact ⟨by decide, by decide⟩
  | cons t ts =>
    simp only [goMarshalIndent] at h
    cases ha : taskJSON t with
    | none => simp [ha] at h
    | some a =>
      cases hb : moreJSON ts with
      | none => simp [ha, hb] at h
      | some b =>
        simp only [ha, hb, Option.some.injEq] at h
        subst h
        have e1 : ascii "[\n  " ++ (a ++ b) = 91 :: 10 :: (ascii "  " ++ (a ++ b)) := rfl
        have hn1 : ¬ (ascii "[\n  " ++ (a ++ b) = ascii "null") := by
          have e2 : ascii "null" = [110, 117, 108, 108] := rfl
          rw [e1, e2]; simp
        have hn2 : ¬ (ascii "[\n  " ++ (a ++ b) = ascii "[]") := by
          have e2 : ascii "[]" = [91, 93] := rfl
          rw [e1, e2]; simp
        refine ⟨by rw [e1]; simp, ?_⟩
        have hrec := pMore_moreJSON ts b b.length.succ
          (fun x hx => hs x (List.mem_cons_of_mem _ hx)) hb
          (Nat.lt_succ_of_le (moreJSON_length ts b hb))
        simp only [goUnmarshal, hn1, hn2, or_self, if_false, expect_append,
          pTask_taskJSON t a b (hs t (List.mem_cons_self _ _)) ha, hrec, List.map_cons]


/-! ## The store -/

set_option maxRecDepth 1000000 in
/-- C4 (counterexample): a collection whose one task has the description of the
single byte `0xFF` (as `task-cli add` receives it from an argument that is not
UTF-8) is saved without error, and the load that follows returns a different
collection: the description has become the three bytes of U+FFFD. -/
theorem save_load_rewrites_ill_formed_text :
    RawTask.Sound ⟨1, [0xFF], ascii "todo", ⟨2024, 5, 1, 10, 0, 0, 0, 0⟩, ⟨2024, 5, 1, 10, 0, 0, 0, 0⟩⟩ ∧
    SaveTasks goJSON
      [⟨1, [0xFF], ascii "todo", ⟨2024, 5, 1, 10, 0, 0, 0, 0⟩, ⟨2024, 5, 1, 10, 0, 0, 0, 0⟩⟩]
      { file := none }
      = (none, { file := goMarshalIndent [⟨1, [0xFF], ascii "todo", ⟨2024, 5, 1, 10, 0, 0, 0, 0⟩, ⟨2024, 5, 1, 10, 0, 0, 0, 0⟩⟩] }) ∧
    (LoadTasks goJSON { file := goMarshalIndent [⟨1, [0xFF], ascii "todo", ⟨2024, 5, 1, 10, 0, 0, 0, 0⟩, ⟨2024, 5, 1, 10, 0, 0, 0, 0⟩⟩] }).1
      = .ok [⟨1, [0xEF, 0xBF, 0xBD], ascii "todo", ⟨2024, 5, 1, 10, 0, 0, 0, 0⟩,
             ⟨2024, 5, 1, 10, 0, 0, 0, 0⟩⟩] ∧
    ([⟨1, [0xEF, 0xBF, 0xBD], ascii "todo", ⟨2024, 5, 1, 10, 0, 0, 0, 0⟩,
       ⟨2024, 5, 1, 10, 0, 0, 0, 0⟩⟩] : List RawTask)
      ≠ [⟨1, [0xFF], ascii "todo", ⟨2024, 5, 1, 10, 0, 0, 0, 0⟩, ⟨2024, 5, 1, 10, 0, 0, 0, 0⟩⟩] := by
  decide

/-- C4 (amended): after `SaveTasks(x)` has succeeded, `LoadTasks()` on the same
file returns without error, and without changing the file, the collection `x`
with every byte of a description or status that is not part of a well-formed
UTF-8 encoding replaced by U+FFFD; so for every collection whose descriptions
and statuses are well-formed UTF-8 it returns a collection equal to `x`: same
length, same order, and in each task the same ID, description, status,
`CreatedAt` and `UpdatedAt`. -/
theorem save_then_load (x : List RawTask) (d d1 : Disk) (hs : ∀ t ∈ x, t.Sound)
    (hsave : SaveTasks goJSON x d = (none, d1)) :
    LoadTasks goJSON d1 = (.ok (x.map RawTask.coerce), d1) ∧
    ((∀ t ∈ x, t.ValidText) → LoadTasks goJSON d1 = (.ok x, d1)) := by
  have hload : LoadTasks goJSON d1 = (.ok (x.map RawTask.coerce), d1) := by
    unfold SaveTasks at hsave
    cases h : goJSON.marshal x with
    | none => simp [h] at hsave
    | some data =>
      simp only [h, Prod.mk.injEq, true_and] at hsave
      obtain ⟨hne, hdec⟩ := goUnmarshal_goMarshalIndent x data hs h
      have hdec1 : goJSON.unmarshal data = some (x.map RawTask.coerce) := hdec
      subst hsave
      simp [LoadTasks, hne, hdec1]
  refine ⟨hload, ?_⟩
  intro hv
  have hmap : x.map RawTask.coerce = x := by
    conv_rhs => rw [← List.map_id x]
    apply List.map_congr_left
    intro t ht
    exact RawTask.coerce_valid t (hv t ht)
  rw [hload, hmap]

set_option maxRecDepth 1000000 in
/-- Witness for C4 (amended): two tasks, one with a description outside ASCII
and characters that JSON escapes, saved over an absent file and loaded. -/
theorem save_then_load_witness :
    LoadTasks goJSON { file := goMarshalIndent [⟨1, [0x22, 0xC3, 0xA9, 0x3C, 10], ascii "done", ⟨2024, 5, 1, 10, 0, 0, 123000000, 120⟩,
          ⟨2024, 5, 2, 9, 30, 0, 0, 0⟩⟩,
         ⟨-2, ascii "b", ascii "todo", ⟨2024, 2, 29, 23, 59, 59, 1, -330⟩,
          ⟨2024, 2, 29, 23, 59, 59, 1, -330⟩⟩] }
      = (.ok [⟨1, [0x22, 0xC3, 0xA9, 0x3C, 10], ascii "done", ⟨2024, 5, 1, 10, 0, 0, 123000000, 120⟩,
               ⟨2024, 5, 2, 9, 30, 0, 0, 0⟩⟩,
              ⟨-2, ascii "b", ascii "todo", ⟨2024, 2, 29, 23, 59, 59, 1, -330⟩,
               ⟨2024, 2, 29, 23, 59, 59, 1, -330⟩⟩],
         { file := goMarshalIndent [⟨1, [0x22, 0xC3, 0xA9, 0x3C, 10], ascii "done", ⟨2024, 5, 1, 10, 0, 0, 123000000, 120⟩,
              ⟨2024, 5, 2, 9, 30, 0, 0, 0⟩⟩,
             ⟨-2, ascii "b", ascii "todo", ⟨2024, 2, 29, 23, 59, 59, 1, -330⟩,
              ⟨2024, 2, 29, 23, 59, 59, 1, -330⟩⟩] }) :=
  (save_then_load
    [⟨1, [0x22, 0xC3, 0xA9, 0x3C, 10], ascii "done", ⟨2024, 5, 1, 10, 0, 0, 123000000, 120⟩,
      ⟨2024, 5, 2, 9, 30, 0, 0, 0⟩⟩,
     ⟨-2, ascii "b", ascii "todo", ⟨2024, 2, 29, 23, 59, 59, 1, -330⟩,
      ⟨2024, 2, 29, 23, 59, 59, 1, -330⟩⟩]
    { file := none }
    { file := goMarshalIndent [⟨1, [0x22, 0xC3, 0xA9, 0x3C, 10], ascii "done", ⟨2024, 5, 1, 10, 0, 0, 123000000, 120⟩,
          ⟨2024, 5, 2, 9, 30, 0, 0, 0⟩⟩,
         ⟨-2, ascii "b", ascii "todo", ⟨2024, 2, 29, 23, 59, 59, 1, -330⟩,
          ⟨2024, 2, 29, 23, 59, 59, 1, -330⟩⟩] }
    (by decide) (by decide)).2 (by decide)

end TaskCli
